import Mathlib

set_option maxHeartbeats 1000000

/-
Shallow embedding of the workflow engine in src/backend/src/workflow_engine.rs.

Modelling conventions:
- Rust HashMap values are modelled as association lists (List (String × _))
  with first-occurrence lookup; HashSet is a membership list.  Iteration order,
  unspecified for Rust HashMap, is determinized to insertion order.
- The usize in-degree counters of topological_sort are modelled as Int: a
  decrement below zero (release-mode wrap-around) never compares equal to zero
  again, which matches Rust for any number of decrements reachable from a
  slice that fits in memory.
- Rust panics (the two .unwrap() calls on Option that can be None, in
  has_cycle and in execute_workflow_steps) are modelled as explicit panic
  outcomes (ValidateOutcome.panicked, Option.none).
- chrono timestamps are modelled as Nat instants supplied by the caller, and
  the Uuid workflow id as a caller-supplied String.
- The recursive depth-first search of has_cycle is modelled with a fuel
  parameter large enough that the fuelOut case is unreachable; no theorem
  below depends on the concrete fuel bound for validation.
-/

/-- JSON-like opaque step payloads (serde_json::Value); only the array
constructor is structurally relevant (execute_step builds an array of
dependency outputs). -/
inductive Json where
  | null
  | bool (b : Bool)
  | num (n : Int)
  | str (s : String)
  | arr (elems : List Json)

/-- WorkflowStep from workflow_engine.rs, lines 9-18. -/
structure WorkflowStep where
  id : String
  operation : String
  dependencies : List String
  data : Json
  parameters : Option Json
  timeout_ms : Option Nat
  retry_count : Option Nat

/-- WorkflowStatus, lines 34-41. -/
inductive WorkflowStatus where
  | Pending
  | Running
  | Completed
  | Failed
  | Cancelled
  deriving DecidableEq

/-- WorkflowExecution, lines 20-32. -/
structure WorkflowExecution where
  id : String
  name : String
  steps : List WorkflowStep
  status : WorkflowStatus
  current_step : Option String
  results : List (String × Json)
  errors : List (String × String)
  start_time : Nat
  end_time : Option Nat
  total_duration_ms : Option Nat

/-- WorkflowResult, lines 43-53. -/
structure WorkflowResult where
  workflow_id : String
  status : WorkflowStatus
  results : List (String × Json)
  errors : List (String × String)
  execution_time_ms : Nat
  step_count : Nat
  successful_steps : Nat
  failed_steps : Nat

/-- HashMap.get: first entry with the given key. -/
def alookup {α : Type} : List (String × α) → String → Option α
  | [], _ => none
  | (k, v) :: rest, key => if k = key then some v else alookup rest key

/-- HashMap.insert: replace the first entry with the key, or append. -/
def ainsert {α : Type} : List (String × α) → String → α → List (String × α)
  | [], k, v => [(k, v)]
  | (k1, v1) :: rest, k, v =>
    if k1 = k then (k, v) :: rest else (k1, v1) :: ainsert rest k v

/-- HashMap.get_mut followed by an in-place update; no-op when absent. -/
def aupdate {α : Type} (f : α → α) : List (String × α) → String → List (String × α)
  | [], _ => []
  | (k1, v1) :: rest, k =>
    if k1 = k then (k1, f v1) :: rest else (k1, v1) :: aupdate f rest k

/-- The key list of an association map. -/
def akeys {α : Type} (m : List (String × α)) : List String := m.map (fun kv => kv.1)

/-- Result of one has_cycle DFS call (lines 337-364); notFound carries the
mutated visited and rec_stack sets. -/
inductive CycleRes where
  | found
  | notFound (visited recStack : List String)
  | panicked
  | fuelOut
  deriving DecidableEq

/-- Continuation shape for the has_cycle recursion: a node visit, or the
remaining dependency list of the node sid being expanded. -/
inductive CycleCall where
  | node (sid : String)
  | deps (pending : List String) (sid : String)

/-- has_cycle (lines 337-364).  The unwrap at line 355 is the panicked case:
it fires when a dependency id names no step.  Note visited and rec_stack are
extended before the find, exactly as in the source. -/
def cycleGo (steps : List WorkflowStep) : Nat → CycleCall → List String → List String → CycleRes
  | 0, _, _, _ => .fuelOut
  | fuel + 1, .node sid, visited, recStack =>
    if sid ∈ recStack then .found
    else if sid ∈ visited then .notFound visited recStack
    else
      match steps.find? (fun s => s.id == sid) with
      | none => .panicked
      | some step =>
        cycleGo steps fuel (.deps step.dependencies sid) (sid :: visited) (sid :: recStack)
  | _ + 1, .deps [] sid, visited, recStack => .notFound visited (recStack.erase sid)
  | fuel + 1, .deps (d :: rest) sid, visited, recStack =>
    match cycleGo steps fuel (.node d) visited recStack with
    | .found => .found
    | .panicked => .panicked
    | .fuelOut => .fuelOut
    | .notFound v r => cycleGo steps fuel (.deps rest sid) v r

/-- Fuel bound for the DFS: nesting depth is bounded by the number of distinct
ids ever inserted into visited, at most steps plus declared dependencies. -/
def hasCycleFuel (steps : List WorkflowStep) : Nat :=
  2 * (steps.length + (steps.flatMap (fun s => s.dependencies)).length + 1)

/-- The for loop over steps in validate_workflow (lines 318-322), threading
the shared visited and rec_stack sets. -/
def cycleCheckLoop (all : List WorkflowStep) (fuel : Nat) :
    List WorkflowStep → List String → List String → CycleRes
  | [], visited, recStack => .notFound visited recStack
  | s :: rest, visited, recStack =>
    match cycleGo all fuel (.node s.id) visited recStack with
    | .found => .found
    | .panicked => .panicked
    | .fuelOut => .fuelOut
    | .notFound v r => cycleCheckLoop all fuel rest v r

/-- The dependency-existence loop of validate_workflow (lines 324-332):
first step (in order) with a dependency outside the id set. -/
def depCheck (ids : List String) : List WorkflowStep → Option (String × String)
  | [] => none
  | s :: rest =>
    match s.dependencies.find? (fun d => !(ids.contains d)) with
    | some d => some (s.id, d)
    | none => depCheck ids rest

/-- Outcome of validate_workflow; error messages of the source are carried
structurally (emptyError, cycleError, unknownDepError), and panicked is the
unwrap panic escaping from has_cycle. -/
inductive ValidateOutcome where
  | ok
  | emptyError
  | cycleError
  | unknownDepError (stepId depId : String)
  | panicked
  deriving DecidableEq

/-- validate_workflow (lines 309-335): empty check, then cycle detection over
every step, then the dependency-existence check. -/
def validate_workflow (steps : List WorkflowStep) : ValidateOutcome :=
  if steps.isEmpty then .emptyError
  else
    match cycleCheckLoop steps (hasCycleFuel steps) steps [] [] with
    | .found => .cycleError
    | .panicked => .panicked
    | .fuelOut => .panicked
    | .notFound _ _ =>
      match depCheck (steps.map (fun s => s.id)) steps with
      | some (sid, d) => .unknownDepError sid d
      | none => .ok

abbrev DegMap := List (String × Int)
abbrev AdjMap := List (String × List String)

/-- Lines 402-405: in_degree initialized to 0 for every step id. -/
def init_in_degree (steps : List WorkflowStep) : DegMap :=
  steps.foldl (fun m s => ainsert m s.id 0) []

/-- Lines 402-405: graph initialized to an empty adjacency list per id. -/
def init_graph (steps : List WorkflowStep) : AdjMap :=
  steps.foldl (fun g s => ainsert g s.id []) []

/-- Lines 408-417: for every step and declared dependency, push the step id
onto the adjacency list of the dependency (when present) and increment the
in-degree of the step id (when present; it always is). -/
def buildEdges (steps : List WorkflowStep) : AdjMap × DegMap :=
  steps.foldl
    (fun gi s =>
      s.dependencies.foldl
        (fun gi2 dep =>
          (aupdate (fun l => l ++ [s.id]) gi2.1 dep,
           aupdate (fun d => d + 1) gi2.2 s.id))
        gi)
    (init_graph steps, init_in_degree steps)

/-- Lines 434-441: process one neighbor of the dequeued node: decrement its
in-degree when present, and enqueue it when the new degree is zero. -/
def decOne (st : DegMap × List String) (nbr : String) : DegMap × List String :=
  match alookup st.1 nbr with
  | none => st
  | some d =>
    (aupdate (fun x => x - 1) st.1 nbr, if d - 1 = 0 then st.2 ++ [nbr] else st.2)

/-- Lines 430-443: the Kahn while loop, with fuel making termination
syntactic; kahnLoop_fuel_sufficient below shows the fuel used by
topological_sort never runs out. -/
def kahnLoop (graph : AdjMap) : Nat → DegMap → List String → List String → Option (List String)
  | _, _, [], result => some result
  | 0, _, _ :: _, _ => none
  | fuel + 1, deg, current :: rest, result =>
    let st := ((alookup graph current).getD []).foldl decOne (deg, rest)
    kahnLoop graph fuel st.1 st.2 (result ++ [current])

def kahnFuel (steps : List WorkflowStep) : Nat := 2 * steps.length + 1

/-- topological_sort (lines 397-450).  The none branch of kahnLoop is
unreachable for this fuel (kahnLoop_fuel_sufficient); it carries the same
message as the length check so that its value is irrelevant. -/
def topological_sort (steps : List WorkflowStep) : Except String (List String) :=
  let gd := buildEdges steps
  let queue0 := (gd.2.filter (fun kd => decide (kd.2 = 0))).map (fun kd => kd.1)
  match kahnLoop gd.1 (kahnFuel steps) gd.2 queue0 [] with
  | none => .error "Circular dependency detected in workflow"
  | some result =>
    if result.length ≠ steps.length then
      .error "Circular dependency detected in workflow"
    else .ok result

/-- A step processor (the boxed closures of step_processors, line 57). -/
abbrev Handler := Json → Option Json → Except String Json

/-- The operation registry: step_processors as a partial name-to-handler map. -/
abbrev Procs := String → Option Handler

/-- Lines 457-469: the input of a step is its own payload when it has no
dependencies, else the array of dependency outputs found in previous_results,
collected in declaration order. -/
def resolve_input (step : WorkflowStep) (previous_results : List (String × Json)) : Json :=
  if step.dependencies.isEmpty then step.data
  else
    .arr (step.dependencies.foldl
      (fun acc dep =>
        match alookup previous_results dep with
        | some r => acc ++ [r]
        | none => acc)
      [])

/-- execute_step (lines 452-479): resolve the input, look up the processor,
invoke it once.  timeout_ms and retry_count are never consulted. -/
def execute_step (procs : Procs) (step : WorkflowStep)
    (previous_results : List (String × Json)) : Except String Json :=
  match procs step.operation with
  | none => .error ("Unknown step operation: " ++ step.operation)
  | some p => p (resolve_input step previous_results) step.parameters

/-- Lines 369-392: execute the schedule in order; a success is inserted into
results, a failure into errors with the wrapping message, and the loop always
continues.  none models the unwrap panic at line 370 (an order id naming no
step). -/
def runSteps (procs : Procs) (allSteps : List WorkflowStep) :
    List String → List (String × Json) × List (String × String) × Option String →
    Option (List (String × Json) × List (String × String) × Option String)
  | [], st => some st
  | sid :: rest, (results, errors, _) =>
    match allSteps.find? (fun s => s.id == sid) with
    | none => none
    | some step =>
      match execute_step procs step results with
      | .ok v => runSteps procs allSteps rest (ainsert results sid v, errors, some sid)
      | .error e =>
        runSteps procs allSteps rest
          (results, ainsert errors sid ("Step execution failed: " ++ e), some sid)

/-- execute_workflow_steps (lines 366-395): a topological_sort failure leaves
the execution untouched (the caller discards the Result); otherwise the loop
updates results, errors and current_step. -/
def execute_workflow_steps (procs : Procs) (exec : WorkflowExecution) :
    Option WorkflowExecution :=
  match topological_sort exec.steps with
  | .error _ => some exec
  | .ok order =>
    (runSteps procs exec.steps order (exec.results, exec.errors, exec.current_step)).map
      (fun st => { exec with results := st.1, errors := st.2.1, current_step := st.2.2 })

/-- Observable outcome of execute_workflow: a Rust panic, an anyhow error
propagated from validation, or the returned pair. -/
inductive EngineOutcome (α : Type) where
  | panicked
  | err (e : ValidateOutcome)
  | ok (a : α)

/-- execute_workflow (lines 240-307).  The generated Uuid and the two
chrono::Utc::now() instants are supplied by the caller (workflow_id, t0, t1);
parameters is received and ignored as in the source.  Validation failure
returns before any record is created; otherwise a Running record is stored,
the steps run, and the finalized record and derived WorkflowResult are
produced. -/
def execute_workflow (procs : Procs) (workflow_id : String) (t0 t1 : Nat)
    (name : String) (steps : List WorkflowStep) (_parameters : Option Json)
    (registry : List (String × WorkflowExecution)) :
    List (String × WorkflowExecution) × EngineOutcome (String × WorkflowResult) :=
  match validate_workflow steps with
  | .ok =>
    let exec0 : WorkflowExecution :=
      { id := workflow_id, name := name, steps := steps, status := .Running,
        current_step := none, results := [], errors := [], start_time := t0,
        end_time := none, total_duration_ms := none }
    let reg1 := ainsert registry workflow_id exec0
    match execute_workflow_steps procs exec0 with
    | none => (reg1, .panicked)
    | some exec1 =>
      let finalStatus : WorkflowStatus :=
        if exec1.errors.isEmpty then .Completed else .Failed
      let exec2 :=
        { exec1 with
          status := finalStatus
          end_time := some t1
          total_duration_ms := some (t1 - t0) }
      let reg2 := ainsert reg1 workflow_id exec2
      (reg2, .ok (workflow_id,
        { workflow_id := workflow_id, status := exec2.status, results := exec2.results,
          errors := exec2.errors, execution_time_ms := t1 - t0,
          step_count := steps.length, successful_steps := exec2.results.length,
          failed_steps := exec2.errors.length }))
  | .panicked => (registry, .panicked)
  | e => (registry, .err e)

/-- cancel_workflow (lines 486-496): any found workflow is set to Cancelled
with an end time, unconditionally; only a missing id is an error. -/
def cancel_workflow (registry : List (String × WorkflowExecution)) (workflow_id : String)
    (now : Nat) : List (String × WorkflowExecution) × Except String Unit :=
  match alookup registry workflow_id with
  | some e =>
    (ainsert registry workflow_id { e with status := .Cancelled, end_time := some now },
     .ok ())
  | none => (registry, .error ("Workflow " ++ workflow_id ++ " not found"))

/-- get_workflow_status (lines 481-484). -/
def get_workflow_status (registry : List (String × WorkflowExecution))
    (workflow_id : String) : Option WorkflowExecution :=
  alookup registry workflow_id

/-- Acyclicity of the declared dependency relation, stated as existence of a
topological numbering: every dependency ranks strictly below its dependent. -/
def AcyclicSteps (steps : List WorkflowStep) : Prop :=
  ∃ rank : String → Nat, ∀ s ∈ steps, ∀ d ∈ s.dependencies, rank d < rank s.id

/-- Spec-side definition, following section 4.4 of the spec: a configured
timeout bounds handler execution, and exceeding it yields a Timeout error.
Handler running time, absent from the code, is an explicit extra argument. -/
def execute_step_spec_timeout (procs : Procs) (step : WorkflowStep)
    (previous_results : List (String × Json)) (handler_duration_ms : Nat) :
    Except String Json :=
  match step.timeout_ms with
  | some bound =>
    if bound < handler_duration_ms then .error "Timeout"
    else execute_step procs step previous_results
  | none => execute_step procs step previous_results

/-- Number of handler invocations execute_step performs: the processor looked
up at line 472 is applied exactly once, at line 476; the retry branch of
execute_workflow_steps (lines 386-389) only logs and never re-invokes. -/
def execute_step_attempts (procs : Procs) (step : WorkflowStep) : Nat :=
  match procs step.operation with
  | none => 0
  | some _ => 1

/-- Spec-side definition, following section 4.4 of the spec: a retry budget of
n grants up to n additional attempts with the same resolved input and
parameters after a failure.  Returns the final outcome and the number of
handler invocations made. -/
def retrySpec (p : Handler) (input : Json) (params : Option Json) :
    Nat → Except String Json × Nat
  | 0 => (p input params, 1)
  | n + 1 =>
    match p input params with
    | .ok v => (.ok v, 1)
    | .error _ =>
      let r := retrySpec p input params n
      (r.1, r.2 + 1)

/-- Spec-side step execution with retries (section 4.4): invoke the handler,
then retry up to retry_count more times on failure. -/
def execute_step_spec_retry (procs : Procs) (step : WorkflowStep)
    (previous_results : List (String × Json)) : Except String Json × Nat :=
  match procs step.operation with
  | none => (.error ("Unknown step operation: " ++ step.operation), 0)
  | some p =>
    retrySpec p (resolve_input step previous_results) step.parameters
      (step.retry_count.getD 0)

/-- Ghost count: elements of a dependency list not yet in res, with
multiplicity. -/
def remDeps (res : List String) : List String → Nat
  | [] => 0
  | d :: rest => (if d ∈ res then 0 else 1) + remDeps res rest

/-- Ghost count: occurrences of cur in a list. -/
def countOcc (cur : String) : List String → Nat
  | [] => 0
  | d :: rest => (if d = cur then 1 else 0) + countOcc cur rest

/-- Ghost count used by the Kahn invariants: dependencies of every step with
id k (counted with multiplicity across duplicate ids) that are not yet in the
emitted list res. -/
def remCount : List WorkflowStep → String → List String → Nat
  | [], _, _ => 0
  | s :: rest, k, res => (if s.id = k then remDeps res s.dependencies else 0) + remCount rest k res

/-- Ghost count: adjacency entries from cur to k, that is occurrences of cur
among the dependencies of steps with id k. -/
def occCount : List WorkflowStep → String → String → Nat
  | [], _, _ => 0
  | s :: rest, k, cur => (if s.id = k then countOcc cur s.dependencies else 0) + occCount rest k cur

/-- The adjacency list buildEdges constructs for key d: one entry per
occurrence of d among each step's dependencies, in step order. -/
def adjChunk : List WorkflowStep → String → List String
  | [], _ => []
  | s :: rest, d => List.replicate (countOcc d s.dependencies) s.id ++ adjChunk rest d

/-- Entries of the in-degree map holding a strictly positive count. -/
def posCount : DegMap → Nat
  | [] => 0
  | kd :: rest => (if 0 < kd.2 then 1 else 0) + posCount rest

/-- A handler that always succeeds with null. -/
def hOk : Handler := fun _ _ => .ok .null

/-- A handler that always fails. -/
def hFail : Handler := fun _ _ => .error "boom"

/-- A registry mapping every operation name to the succeeding handler. -/
def procsOk : Procs := fun _ => some hOk

/-- A registry mapping every operation name to the failing handler. -/
def procsFail : Procs := fun _ => some hFail

/-- Concrete step constructor for the witnesses. -/
def mkStep (sid : String) (deps : List String) : WorkflowStep :=
  { id := sid, operation := "op", dependencies := deps, data := .null,
    parameters := none, timeout_ms := none, retry_count := none }

/-- One step depending on an id that names no step. -/
def stepMissingDep : WorkflowStep := mkStep "a" ["b"]

/-- The two-step cycle of spec scenario 2. -/
def cyclePairSteps : List WorkflowStep := [mkStep "a" ["b"], mkStep "b" ["a"]]

/-- A three-step acyclic chain, listed out of dependency order. -/
def chainSteps : List WorkflowStep := [mkStep "c" ["b"], mkStep "a" [], mkStep "b" ["a"]]

/-- Two steps sharing one id. -/
def dupSteps : List WorkflowStep := [mkStep "a" [], mkStep "a" []]

/-- A step with a configured timeout. -/
def timeoutStep : WorkflowStep := { mkStep "t" [] with timeout_ms := some 5 }

/-- A step with a retry budget of 2. -/
def retryStep : WorkflowStep := { mkStep "r" [] with retry_count := some 2 }

/-- A workflow record already in the terminal Completed state. -/
def completedExec : WorkflowExecution :=
  { id := "w1", name := "demo", steps := [], status := .Completed,
    current_step := none, results := [], errors := [], start_time := 0,
    end_time := some 3, total_duration_ms := some 3 }

/-- A registry holding only the completed workflow. -/
def registry0 : List (String × WorkflowExecution) := [("w1", completedExec)]

/-- The id list of a step list (with multiplicity). -/
def stepIds (steps : List WorkflowStep) : List String := steps.map (fun s => s.id)

/-- Invariant of the Kahn while loop relating the in-degree map, the pending
queue and the emitted order: degrees count not-yet-emitted dependencies, the
queue holds exactly the unemitted ids with no remaining dependencies, emitted
and queued ids are distinct valid ids, and the emitted list is already
topologically ordered. -/
def KahnInv (steps : List WorkflowStep) (deg : DegMap) (queue res : List String) : Prop :=
  (∀ k, (alookup deg k).isSome ↔ k ∈ stepIds steps) ∧
  (∀ k d, alookup deg k = some d → d = (remCount steps k res : Int)) ∧
  (res ++ queue).Nodup ∧
  (∀ x ∈ res ++ queue, x ∈ stepIds steps) ∧
  (∀ k ∈ stepIds steps, k ∈ queue ↔ (remCount steps k res = 0 ∧ ¬ k ∈ res)) ∧
  (∀ s ∈ steps, s.id ∈ res → ∀ d ∈ s.dependencies, d ∈ res ∧ res.indexOf d < res.indexOf s.id)

/-! ### Association map lemmas -/

theorem alookup_ainsert_self {α : Type} (m : List (String × α)) (k : String) (v : α) :
    alookup (ainsert m k v) k = some v := by
  induction m with
  | nil => simp [ainsert, alookup]
  | cons kv rest ih =>
    by_cases h : kv.1 = k
    · simp [ainsert, h, alookup]
    · simpa [ainsert, h, alookup] using ih

theorem alookup_ainsert_ne {α : Type} (m : List (String × α)) (k k1 : String) (v : α)
    (h : k ≠ k1) : alookup (ainsert m k v) k1 = alookup m k1 := by
  induction m with
  | nil => simp [ainsert, alookup, h]
  | cons kv rest ih =>
    by_cases h2 : kv.1 = k
    · simp [ainsert, h2, alookup, h]
    · simp [ainsert, h2, alookup]
      by_cases h3 : kv.1 = k1 <;> simp [h3, ih]

theorem alookup_aupdate_self {α : Type} (f : α → α) (m : List (String × α)) (k : String) :
    alookup (aupdate f m k) k = (alookup m k).map f := by
  induction m with
  | nil => simp [aupdate, alookup]
  | cons kv rest ih =>
    by_cases h : kv.1 = k
    · simp [aupdate, h, alookup]
    · simpa [aupdate, h, alookup] using ih

theorem alookup_aupdate_ne {α : Type} (f : α → α) (m : List (String × α)) (k k1 : String)
    (h : k ≠ k1) : alookup (aupdate f m k) k1 = alookup m k1 := by
  induction m with
  | nil => simp [aupdate, alookup]
  | cons kv rest ih =>
    by_cases h2 : kv.1 = k
    · subst h2
      simp [aupdate, alookup, h]
    · by_cases h3 : kv.1 = k1 <;> simp [aupdate, alookup, h2, h3, ih, Ne.symm h]

theorem akeys_aupdate {α : Type} (f : α → α) (m : List (String × α)) (k : String) :
    akeys (aupdate f m k) = akeys m := by
  induction m with
  | nil => simp [aupdate]
  | cons kv rest ih =>
    by_cases h : kv.1 = k <;> simp [aupdate, h, akeys] at ih ⊢ <;> simp [ih]

theorem aupdate_length {α : Type} (f : α → α) (m : List (String × α)) (k : String) :
    (aupdate f m k).length = m.length := by
  induction m with
  | nil => simp [aupdate]
  | cons kv rest ih =>
    by_cases h : kv.1 = k <;> simp [aupdate, h, ih]

/-! ### Input resolution (claim C8) -/

theorem resolve_fold_eq_filterMap (res : List (String × Json)) (deps : List String) :
    ∀ acc : List Json,
      deps.foldl
        (fun acc dep =>
          match alookup res dep with
          | some r => acc ++ [r]
          | none => acc)
        acc = acc ++ deps.filterMap (alookup res) := by
  induction deps with
  | nil => intro acc; simp
  | cons d rest ih =>
    intro acc
    cases h : alookup res d <;> simp [List.foldl_cons, h, ih]

/-- Claim C8: the input passed to the handler is the step payload when the
step has no dependencies, and otherwise the array of dependency outputs
present in previous_results, in dependency declaration order, outputs of
failed (absent) dependencies being omitted. -/
theorem execute_step_input_resolution (procs : Procs) (step : WorkflowStep)
    (res : List (String × Json)) (p : Handler)
    (hp : procs step.operation = some p) :
    execute_step procs step res =
      p (if step.dependencies.isEmpty then step.data
         else Json.arr (step.dependencies.filterMap (alookup res)))
        step.parameters := by
  unfold execute_step resolve_input
  rw [hp]
  by_cases h : step.dependencies.isEmpty <;>
    simp [h, resolve_fold_eq_filterMap res step.dependencies []]

/-- Witness for C8 at a concrete step with one resolvable and one absent
dependency. -/
theorem execute_step_input_resolution_witness :
    execute_step procsOk (mkStep "z" ["a", "b"]) [("a", Json.num 1)] =
      hOk (if (mkStep "z" ["a", "b"]).dependencies.isEmpty
           then (mkStep "z" ["a", "b"]).data
           else Json.arr ((mkStep "z" ["a", "b"]).dependencies.filterMap
             (alookup [("a", Json.num 1)])))
        (mkStep "z" ["a", "b"]).parameters :=
  execute_step_input_resolution procsOk (mkStep "z" ["a", "b"]) [("a", Json.num 1)] hOk rfl

/-! ### Claim C1: missing dependency makes validation panic -/

/-- Claim C1 (code_bug evidence): on a step whose dependency names no step,
validate_workflow panics via the unwrap inside has_cycle instead of
returning the unknown-dependency error the source prepares at lines 324-332.
The cycle check runs first and dereferences the missing id. -/
theorem validate_panics_on_missing_dependency :
    validate_workflow [stepMissingDep] = ValidateOutcome.panicked := by
  decide

/-! ### Claim C4: validation failure records nothing -/

/-- Counterexample for claim C4 as stated: on the two-step cycle, submit
returns the cycle error but the registry stays empty, so no Failed workflow
with a synthetic error entry is recorded. -/
theorem submit_cycle_records_nothing_cx :
    (execute_workflow procsOk "wid" 0 1 "demo" cyclePairSteps none []).1 = [] ∧
    (execute_workflow procsOk "wid" 0 1 "demo" cyclePairSteps none []).2 =
      EngineOutcome.err ValidateOutcome.cycleError ∧
    alookup (execute_workflow procsOk "wid" 0 1 "demo" cyclePairSteps none []).1 "wid" =
      none := by
  refine ⟨?_, ?_, ?_⟩ <;> rfl

/-- Claim C4 amended: a step list failing graph validation makes submit fail
with that error before any step runs and before any record is created: the
registry is left unchanged and no workflow result is produced. -/
theorem submit_validation_failure_leaves_registry (procs : Procs) (wid : String)
    (t0 t1 : Nat) (name : String) (steps : List WorkflowStep) (params : Option Json)
    (registry : List (String × WorkflowExecution))
    (h : validate_workflow steps ≠ ValidateOutcome.ok) :
    (execute_workflow procs wid t0 t1 name steps params registry).1 = registry ∧
    (∀ out, (execute_workflow procs wid t0 t1 name steps params registry).2 ≠
      EngineOutcome.ok out) ∧
    (validate_workflow steps ≠ ValidateOutcome.panicked →
      (execute_workflow procs wid t0 t1 name steps params registry).2 =
        EngineOutcome.err (validate_workflow steps)) := by
  unfold execute_workflow
  cases hv : validate_workflow steps <;> simp_all

/-- Witness for the amended C4 at the concrete two-step cycle. -/
theorem submit_validation_failure_leaves_registry_witness :
    (execute_workflow procsOk "w" 2 3 "demo" cyclePairSteps none registry0).1 = registry0 ∧
    (∀ out, (execute_workflow procsOk "w" 2 3 "demo" cyclePairSteps none registry0).2 ≠
      EngineOutcome.ok out) ∧
    (validate_workflow cyclePairSteps ≠ ValidateOutcome.panicked →
      (execute_workflow procsOk "w" 2 3 "demo" cyclePairSteps none registry0).2 =
        EngineOutcome.err (validate_workflow cyclePairSteps)) :=
  submit_validation_failure_leaves_registry procsOk "w" 2 3 "demo" cyclePairSteps none
    registry0 (by decide)

/-! ### Claim C5: cancel semantics -/

/-- Counterexample for claim C5 as stated: cancelling a workflow already in
the terminal Completed state is not rejected; it succeeds and overwrites the
status with Cancelled. -/
theorem cancel_completed_workflow_cx :
    (cancel_workflow registry0 "w1" 9).2 = Except.ok () ∧
    (alookup (cancel_workflow registry0 "w1" 9).1 "w1").map WorkflowExecution.status =
      some WorkflowStatus.Cancelled ∧
    (alookup (cancel_workflow registry0 "w1" 9).1 "w1").map WorkflowExecution.status ≠
      some WorkflowStatus.Completed := by
  refine ⟨rfl, rfl, ?_⟩
  intro h
  rw [show (alookup (cancel_workflow registry0 "w1" 9).1 "w1").map WorkflowExecution.status =
    some WorkflowStatus.Cancelled from rfl] at h
  simp at h

/-- Claim C5 amended: cancel returns NotFound exactly when the id is absent;
any found workflow, terminal or not, is unconditionally set to Cancelled with
the end time recorded (there is no AlreadyTerminal rejection). -/
theorem cancel_behavior (registry : List (String × WorkflowExecution)) (wid : String)
    (now : Nat) :
    (alookup registry wid = none →
      cancel_workflow registry wid now =
        (registry, Except.error ("Workflow " ++ wid ++ " not found"))) ∧
    (∀ e, alookup registry wid = some e →
      (cancel_workflow registry wid now).2 = Except.ok () ∧
      alookup (cancel_workflow registry wid now).1 wid =
        some { e with status := WorkflowStatus.Cancelled, end_time := some now }) := by
  constructor
  · intro h
    simp [cancel_workflow, h]
  · intro e he
    simp [cancel_workflow, he, alookup_ainsert_self]

/-- Witness for the amended C5: a missing id is NotFound, and the completed
workflow in registry0 is overwritten to Cancelled with end time 9. -/
theorem cancel_behavior_witness :
    cancel_workflow registry0 "zz" 4 =
      (registry0, Except.error ("Workflow " ++ "zz" ++ " not found")) ∧
    ((cancel_workflow registry0 "w1" 9).2 = Except.ok () ∧
      alookup (cancel_workflow registry0 "w1" 9).1 "w1" =
        some { completedExec with status := WorkflowStatus.Cancelled, end_time := some 9 }) :=
  ⟨(cancel_behavior registry0 "zz" 4).1 rfl,
   (cancel_behavior registry0 "w1" 9).2 completedExec rfl⟩

/-! ### Claim C6: timeouts are never enforced -/

/-- Counterexample for claim C6 as stated: a step with a 5 ms timeout whose
handler takes 10 ms does not produce a Timeout outcome; the code result
differs from the spec-side timeout semantics. -/
theorem execute_step_ignores_timeout_cx :
    execute_step procsOk timeoutStep [] ≠
      execute_step_spec_timeout procsOk timeoutStep [] 10 := by
  intro h
  rw [show execute_step procsOk timeoutStep [] = Except.ok Json.null from rfl,
    show execute_step_spec_timeout procsOk timeoutStep [] 10 =
      Except.error "Timeout" from rfl] at h
  exact Except.noConfusion h

/-- Claim C6 amended: execute_step never reads timeout_ms; its outcome is
identical whatever the configured timeout, so no run ever yields a Timeout
error distinct from the handler outcome. -/
theorem execute_step_timeout_irrelevance (procs : Procs) (step : WorkflowStep)
    (res : List (String × Json)) (n m : Option Nat) :
    execute_step procs { step with timeout_ms := n } res =
      execute_step procs { step with timeout_ms := m } res := rfl

/-! ### Claim C7: retries are never performed -/

/-- Counterexample for claim C7 as stated: a step with retry budget 2 whose
handler always fails is attempted once by the code, while the spec-side retry
semantics performs 3 attempts. -/
theorem execute_step_single_attempt_cx :
    execute_step_attempts procsFail retryStep = 1 ∧
    (execute_step_spec_retry procsFail retryStep []).2 = 3 ∧
    execute_step_attempts procsFail retryStep ≠
      (execute_step_spec_retry procsFail retryStep []).2 := by
  refine ⟨rfl, rfl, by decide⟩

/-- Claim C7 amended: the retry budget is ignored; execute_step performs at
most one handler invocation regardless of retry_count, and its outcome does
not depend on retry_count. -/
theorem execute_step_retry_irrelevance (procs : Procs) (step : WorkflowStep)
    (res : List (String × Json)) (n m : Option Nat) :
    execute_step procs { step with retry_count := n } res =
      execute_step procs { step with retry_count := m } res ∧
    execute_step_attempts procs step ≤ 1 := by
  refine ⟨rfl, ?_⟩
  unfold execute_step_attempts
  cases procs step.operation <;> simp

/-! ### Ghost count lemmas -/

theorem countOcc_append (cur : String) (l1 l2 : List String) :
    countOcc cur (l1 ++ l2) = countOcc cur l1 + countOcc cur l2 := by
  induction l1 with
  | nil => simp [countOcc]
  | cons d rest ih => simp [countOcc, ih]; omega

theorem countOcc_replicate (cur x : String) (n : Nat) :
    countOcc cur (List.replicate n x) = if x = cur then n else 0 := by
  induction n with
  | zero => simp [countOcc]
  | succ n ih =>
    rw [List.replicate_succ]
    by_cases h : x = cur
    · subst h
      simp [countOcc, ih]
      omega
    · simp [countOcc, h, ih]

theorem countOcc_eq_zero (cur : String) (l : List String) :
    countOcc cur l = 0 ↔ ¬ cur ∈ l := by
  induction l with
  | nil => simp [countOcc]
  | cons d rest ih =>
    simp only [countOcc, List.mem_cons]
    by_cases h : d = cur
    · simp only [if_pos h]
      refine ⟨fun h0 => absurd h0 (by omega), fun h0 => absurd (Or.inl h.symm) h0⟩
    · simp only [if_neg h, Nat.zero_add, ih]
      constructor
      · intro h0 h1
        rcases h1 with h1 | h1
        · exact h h1.symm
        · exact h0 h1
      · intro h0 h1
        exact h0 (Or.inr h1)

theorem countOcc_pos (cur : String) (l : List String) (h : cur ∈ l) :
    0 < countOcc cur l := by
  by_contra h2
  exact (countOcc_eq_zero cur l).mp (by omega) h

theorem remDeps_snoc (deps : List String) (res : List String) (cur : String)
    (h : ¬ cur ∈ res) :
    remDeps (res ++ [cur]) deps + countOcc cur deps = remDeps res deps := by
  induction deps with
  | nil => simp [remDeps, countOcc]
  | cons d rest ih =>
    by_cases hdc : d = cur
    · subst hdc
      have h1 : d ∈ res ++ [d] := by simp
      simp [remDeps, countOcc, h1, h]
      omega
    · by_cases hdr : d ∈ res
      · have h2 : d ∈ res ++ [cur] := by simp [hdr]
        simp [remDeps, countOcc, h2, hdr, hdc]
        omega
      · have h2 : ¬ d ∈ res ++ [cur] := by simp [hdr, hdc]
        simp [remDeps, countOcc, h2, hdr, hdc]
        omega

theorem remDeps_eq_zero (deps res : List String) :
    remDeps res deps = 0 ↔ ∀ d ∈ deps, d ∈ res := by
  induction deps with
  | nil => simp [remDeps]
  | cons d rest ih =>
    by_cases h : d ∈ res <;> simp [remDeps, h, ih]

theorem remCount_snoc (steps : List WorkflowStep) (k cur : String) (res : List String)
    (h : ¬ cur ∈ res) :
    remCount steps k (res ++ [cur]) + occCount steps k cur = remCount steps k res := by
  induction steps with
  | nil => simp [remCount, occCount]
  | cons s rest ih =>
    have h1 := remDeps_snoc s.dependencies res cur h
    by_cases hs : s.id = k <;> simp [remCount, occCount, hs] <;> omega

theorem remCount_eq_zero (steps : List WorkflowStep) (k : String) (res : List String) :
    remCount steps k res = 0 ↔
      ∀ s ∈ steps, s.id = k → ∀ d ∈ s.dependencies, d ∈ res := by
  induction steps with
  | nil => simp [remCount]
  | cons s rest ih =>
    simp only [remCount, List.mem_cons]
    by_cases hs : s.id = k
    · simp only [if_pos hs, Nat.add_eq_zero, remDeps_eq_zero, ih]
      constructor
      · rintro ⟨h1, h2⟩ s2 hs2 hk d hd
        rcases hs2 with h3 | h3
        · subst h3; exact h1 d hd
        · exact h2 s2 h3 hk d hd
      · intro h1
        exact ⟨fun d hd => h1 s (Or.inl rfl) hs d hd,
          fun s2 h3 hk d hd => h1 s2 (Or.inr h3) hk d hd⟩
    · simp only [if_neg hs, Nat.zero_add, ih]
      constructor
      · intro h1 s2 hs2 hk d hd
        rcases hs2 with h3 | h3
        · subst h3; exact absurd hk hs
        · exact h1 s2 h3 hk d hd
      · intro h1 s2 h3 hk d hd
        exact h1 s2 (Or.inr h3) hk d hd

theorem countOcc_adjChunk (steps : List WorkflowStep) (cur k : String) :
    countOcc k (adjChunk steps cur) = occCount steps k cur := by
  induction steps with
  | nil => simp [adjChunk, occCount, countOcc]
  | cons s rest ih =>
    simp only [adjChunk, countOcc_append, countOcc_replicate, occCount, ih]

/-! ### Key-list and initialization lemmas -/

theorem alookup_eq_none {α : Type} (m : List (String × α)) (k : String) :
    alookup m k = none ↔ ¬ k ∈ akeys m := by
  induction m with
  | nil => simp [alookup, akeys]
  | cons kv rest ih =>
    simp only [alookup, akeys, List.map_cons, List.mem_cons]
    simp only [akeys] at ih
    by_cases h : kv.1 = k
    · simp only [if_pos h]
      constructor
      · intro h1
        exact Option.noConfusion h1
      · intro h1
        exact absurd (Or.inl h.symm) h1
    · simp only [if_neg h]
      rw [ih]
      constructor
      · intro h1 h2
        rcases h2 with h2 | h2
        · exact h h2.symm
        · exact h1 h2
      · intro h1 h2
        exact h1 (Or.inr h2)

theorem alookup_isSome_iff {α : Type} (m : List (String × α)) (k : String) :
    (alookup m k).isSome ↔ k ∈ akeys m := by
  rcases hl : alookup m k with _ | v
  · simp only [Option.isSome_none, Bool.false_eq_true, false_iff]
    exact (alookup_eq_none m k).mp hl
  · simp only [Option.isSome_some, true_iff]
    by_contra h2
    rw [(alookup_eq_none m k).mpr h2] at hl
    exact Option.noConfusion hl

theorem akeys_ainsert {α : Type} (m : List (String × α)) (k : String) (v : α) :
    akeys (ainsert m k v) = if k ∈ akeys m then akeys m else akeys m ++ [k] := by
  induction m with
  | nil => simp [ainsert, akeys]
  | cons kv rest ih =>
    by_cases h : kv.1 = k
    · subst h
      simp [ainsert, akeys]
    · have hne : ¬ k = kv.1 := fun hh => h hh.symm
      simp only [ainsert, if_neg h, akeys, List.map_cons] at ih ⊢
      rw [ih]
      by_cases h3 : k ∈ List.map (fun kv => kv.1) rest
      · rw [if_pos h3, if_pos (List.mem_cons.mpr (Or.inr h3))]
      · have hnc : ¬ k ∈ kv.1 :: List.map (fun kv => kv.1) rest := by
          intro hc
          rcases List.mem_cons.mp hc with hc | hc
          · exact hne hc
          · exact h3 hc
        rw [if_neg h3, if_neg hnc, List.cons_append]

theorem alookup_nodup_mem {α : Type} (m : List (String × α))
    (h : (akeys m).Nodup) (k : String) (v : α) :
    (k, v) ∈ m ↔ alookup m k = some v := by
  induction m with
  | nil => simp [alookup]
  | cons kv rest ih =>
    simp only [akeys, List.map_cons, List.nodup_cons] at h
    obtain ⟨hk1, hk2⟩ := h
    by_cases hk : kv.1 = k
    · subst hk
      simp only [alookup, if_pos rfl, List.mem_cons]
      constructor
      · rintro (h1 | h1)
        · have h2 : v = kv.2 := congrArg Prod.snd h1
          simp [h2]
        · exact absurd (List.mem_map_of_mem (fun kv2 => kv2.1) h1) hk1
      · intro h1
        left
        have h2 : kv.2 = v := Option.some.inj h1
        rw [← h2]
    · simp only [alookup, if_neg hk, List.mem_cons]
      have ih2 := ih (by simpa [akeys] using hk2)
      rw [← ih2]
      constructor
      · rintro (h1 | h1)
        · exact absurd (congrArg Prod.fst h1).symm hk
        · exact h1
      · exact Or.inr

theorem alookup_const_fold {α : Type} (c : α) (steps : List WorkflowStep) :
    ∀ (m : List (String × α)) (k : String),
      alookup (steps.foldl (fun m2 s => ainsert m2 s.id c) m) k =
        if k ∈ stepIds steps then some c else alookup m k := by
  induction steps with
  | nil =>
    intro m k
    simp [stepIds]
  | cons s rest ih =>
    intro m k
    rw [List.foldl_cons, ih]
    by_cases hm : k ∈ stepIds rest
    · have hm2 : k ∈ stepIds (s :: rest) := by
        simp only [stepIds, List.map_cons, List.mem_cons]
        exact Or.inr hm
      rw [if_pos hm, if_pos hm2]
    · by_cases hk : s.id = k
      · subst hk
        have hm2 : s.id ∈ stepIds (s :: rest) := by
          simp [stepIds]
        rw [if_neg hm, if_pos hm2, alookup_ainsert_self]
      · have hm2 : ¬ k ∈ stepIds (s :: rest) := by
          simp only [stepIds, List.map_cons, List.mem_cons]
          intro hc
          rcases hc with hc | hc
          · exact hk hc.symm
          · exact hm hc
        rw [if_neg hm, if_neg hm2, alookup_ainsert_ne m s.id k c hk]

theorem alookup_init_in_degree (steps : List WorkflowStep) (k : String) :
    alookup (init_in_degree steps) k =
      if k ∈ stepIds steps then some 0 else none := by
  unfold init_in_degree
  rw [alookup_const_fold]
  by_cases h : k ∈ stepIds steps <;> simp [h, alookup]

theorem alookup_init_graph (steps : List WorkflowStep) (k : String) :
    alookup (init_graph steps) k =
      if k ∈ stepIds steps then some [] else none := by
  unfold init_graph
  rw [alookup_const_fold]
  by_cases h : k ∈ stepIds steps <;> simp [h, alookup]

theorem akeys_const_fold_nodup {α : Type} (c : α) (steps : List WorkflowStep) :
    ∀ (m : List (String × α)), (akeys m).Nodup →
      (akeys (steps.foldl (fun m2 s => ainsert m2 s.id c) m)).Nodup := by
  induction steps with
  | nil => intro m h; exact h
  | cons s rest ih =>
    intro m h
    rw [List.foldl_cons]
    apply ih
    rw [akeys_ainsert]
    by_cases h2 : s.id ∈ akeys m
    · rw [if_pos h2]; exact h
    · rw [if_neg h2]
      simp [List.nodup_append, h, h2]

theorem akeys_const_fold_length {α : Type} (c : α) (steps : List WorkflowStep) :
    ∀ (m : List (String × α)),
      (akeys (steps.foldl (fun m2 s => ainsert m2 s.id c) m)).length ≤
        (akeys m).length + steps.length := by
  induction steps with
  | nil => intro m; simp
  | cons s rest ih =>
    intro m
    rw [List.foldl_cons]
    have h1 := ih (ainsert m s.id c)
    rw [akeys_ainsert] at h1
    by_cases h2 : s.id ∈ akeys m
    · rw [if_pos h2] at h1
      simp only [List.length_cons]
      omega
    · rw [if_neg h2] at h1
      simp [List.length_append] at h1 ⊢
      omega

theorem akeys_const_fold_length_lt {α : Type} (c : α) (steps : List WorkflowStep) :
    ∀ (m : List (String × α)),
      (¬ (stepIds steps).Nodup ∨ ∃ s ∈ steps, s.id ∈ akeys m) →
      (akeys (steps.foldl (fun m2 s => ainsert m2 s.id c) m)).length <
        (akeys m).length + steps.length := by
  induction steps with
  | nil =>
    intro m h
    rcases h with h | ⟨s, hs, _⟩
    · exact absurd List.nodup_nil h
    · exact absurd hs (List.not_mem_nil s)
  | cons s rest ih =>
    intro m h
    rw [List.foldl_cons]
    by_cases h2 : s.id ∈ akeys m
    · have h1 := akeys_const_fold_length c rest (ainsert m s.id c)
      rw [akeys_ainsert, if_pos h2] at h1
      simp only [List.length_cons]
      omega
    · have hcase : ¬ (stepIds rest).Nodup ∨ ∃ s2 ∈ rest, s2.id ∈ akeys (ainsert m s.id c) := by
        rcases h with h | ⟨s2, hs2, hmem⟩
        · simp only [stepIds, List.map_cons, List.nodup_cons] at h
          rw [Decidable.not_and_iff_or_not] at h
          rcases h with h | h
          · rw [Decidable.not_not] at h
            rcases List.mem_map.mp h with ⟨s2, hs2, hid⟩
            refine Or.inr ⟨s2, hs2, ?_⟩
            rw [akeys_ainsert, if_neg h2, hid]
            simp
          · exact Or.inl h
        · rcases List.mem_cons.mp hs2 with h3 | h3
          · subst h3
            exact absurd hmem h2
          · refine Or.inr ⟨s2, h3, ?_⟩
            rw [akeys_ainsert, if_neg h2]
            simp [hmem]
      have h1 := ih (ainsert m s.id c) hcase
      rw [akeys_ainsert, if_neg h2] at h1
      simp [List.length_append] at h1 ⊢
      omega

/-! ### buildEdges characterization -/

theorem inner_build_deg (sid : String) (deps : List String) :
    ∀ (gm : AdjMap × DegMap) (k : String),
      alookup ((deps.foldl (fun gi2 dep =>
          (aupdate (fun l => l ++ [sid]) gi2.1 dep,
           aupdate (fun d => d + 1) gi2.2 sid)) gm).2) k =
        if k = sid then (alookup gm.2 k).map (fun x => x + (deps.length : Int))
        else alookup gm.2 k := by
  induction deps with
  | nil =>
    intro gm k
    simp only [List.foldl_nil, List.length_nil, Nat.cast_zero]
    by_cases h : k = sid
    · rw [if_pos h]
      cases alookup gm.2 k <;> simp
    · rw [if_neg h]
  | cons d0 rest ih =>
    intro gm k
    rw [List.foldl_cons, ih]
    by_cases h : k = sid
    · subst h
      rw [if_pos rfl, alookup_aupdate_self]
      cases alookup gm.2 k with
      | none => simp
      | some x =>
        simp
        omega
    · simp only [if_neg h]
      exact alookup_aupdate_ne _ gm.2 sid k (fun hh => h hh.symm)

theorem inner_build_graph (sid : String) (deps : List String) :
    ∀ (gm : AdjMap × DegMap) (d1 : String),
      alookup ((deps.foldl (fun gi2 dep =>
          (aupdate (fun l => l ++ [sid]) gi2.1 dep,
           aupdate (fun d => d + 1) gi2.2 sid)) gm).1) d1 =
        (alookup gm.1 d1).map (fun l => l ++ List.replicate (countOcc d1 deps) sid) := by
  induction deps with
  | nil =>
    intro gm d1
    simp only [List.foldl_nil, countOcc, List.replicate_zero, List.append_nil]
    cases alookup gm.1 d1 <;> simp
  | cons d0 rest ih =>
    intro gm d1
    rw [List.foldl_cons, ih]
    by_cases h : d0 = d1
    · subst h
      rw [alookup_aupdate_self]
      cases alookup gm.1 d0 with
      | none => simp
      | some l =>
        simp [countOcc, Nat.add_comm 1 (countOcc d0 rest), List.replicate_succ]
    · rw [alookup_aupdate_ne _ gm.1 d0 d1 h]
      simp only [countOcc, if_neg h, Nat.zero_add]

theorem outer_build_deg (steps : List WorkflowStep) :
    ∀ (gm : AdjMap × DegMap) (k : String),
      alookup ((steps.foldl (fun gi s =>
          s.dependencies.foldl (fun gi2 dep =>
            (aupdate (fun l => l ++ [s.id]) gi2.1 dep,
             aupdate (fun d => d + 1) gi2.2 s.id)) gi) gm).2) k =
        (alookup gm.2 k).map (fun x => x + (remCount steps k [] : Int)) := by
  induction steps with
  | nil =>
    intro gm k
    simp only [List.foldl_nil, remCount, Nat.cast_zero]
    cases alookup gm.2 k <;> simp
  | cons s rest ih =>
    intro gm k
    rw [List.foldl_cons, ih, inner_build_deg]
    have hrd : remDeps [] s.dependencies = s.dependencies.length := by
      induction s.dependencies with
      | nil => simp [remDeps]
      | cons d ds ihd =>
        simp [remDeps, ihd]
        omega
    by_cases h : k = s.id
    · subst h
      simp only [remCount, if_pos rfl, hrd]
      cases alookup gm.2 s.id with
      | none => simp
      | some x =>
        simp
        omega
    · have h2 : ¬ s.id = k := fun hh => h hh.symm
      simp only [if_neg h, remCount, if_neg h2, Nat.zero_add]

theorem outer_build_graph (steps : List WorkflowStep) :
    ∀ (gm : AdjMap × DegMap) (d1 : String),
      alookup ((steps.foldl (fun gi s =>
          s.dependencies.foldl (fun gi2 dep =>
            (aupdate (fun l => l ++ [s.id]) gi2.1 dep,
             aupdate (fun d => d + 1) gi2.2 s.id)) gi) gm).1) d1 =
        (alookup gm.1 d1).map (fun l => l ++ adjChunk steps d1) := by
  induction steps with
  | nil =>
    intro gm d1
    simp only [List.foldl_nil, adjChunk, List.append_nil]
    cases alookup gm.1 d1 <;> simp
  | cons s rest ih =>
    intro gm d1
    rw [List.foldl_cons, ih, inner_build_graph]
    cases alookup gm.1 d1 <;> simp [adjChunk, List.append_assoc]

theorem alookup_buildEdges_deg (steps : List WorkflowStep) (k : String) :
    alookup (buildEdges steps).2 k =
      if k ∈ stepIds steps then some ((remCount steps k [] : Int)) else none := by
  unfold buildEdges
  rw [outer_build_deg]
  simp only [alookup_init_in_degree]
  by_cases h : k ∈ stepIds steps <;> simp [h]

theorem alookup_buildEdges_graph (steps : List WorkflowStep) (d1 : String) :
    alookup (buildEdges steps).1 d1 =
      if d1 ∈ stepIds steps then some (adjChunk steps d1) else none := by
  unfold buildEdges
  rw [outer_build_graph]
  simp only [alookup_init_graph]
  by_cases h : d1 ∈ stepIds steps <;> simp [h]

/-! ### Decrement fold lemmas -/

theorem foldDec_lookup (adj : List String) :
    ∀ (deg : DegMap) (q : List String) (k : String),
      alookup ((adj.foldl decOne (deg, q)).1) k =
        (alookup deg k).map (fun d => d - (countOcc k adj : Int)) := by
  induction adj with
  | nil =>
    intro deg q k
    simp only [List.foldl_nil, countOcc, Nat.cast_zero]
    cases alookup deg k <;> simp
  | cons a as ih =>
    intro deg q k
    rw [List.foldl_cons]
    cases hla : alookup deg a with
    | none =>
      have hd : decOne (deg, q) a = (deg, q) := by
        simp [decOne, hla]
      rw [hd, ih]
      by_cases hxa : a = k
      · subst hxa
        rw [hla]
        simp
      · simp only [countOcc, if_neg hxa, Nat.zero_add]
    | some da =>
      have hd : decOne (deg, q) a =
          (aupdate (fun x => x - 1) deg a, if da - 1 = 0 then q ++ [a] else q) := by
        simp [decOne, hla]
      rw [hd, ih]
      by_cases hxa : a = k
      · subst hxa
        rw [alookup_aupdate_self, hla]
        simp only [countOcc, if_pos rfl, Option.map_some', Option.some.injEq]
        push_cast
        omega
      · rw [alookup_aupdate_ne _ deg a k hxa]
        simp only [countOcc, if_neg hxa, Nat.zero_add]

theorem foldDec_count_some (adj : List String) :
    ∀ (deg : DegMap) (q : List String) (x : String) (d : Int),
      alookup deg x = some d →
      countOcc x ((adj.foldl decOne (deg, q)).2) =
        countOcc x q + (if 1 ≤ d ∧ d ≤ (countOcc x adj : Int) then 1 else 0) := by
  induction adj with
  | nil =>
    intro deg q x d hx
    simp only [List.foldl_nil, countOcc, Nat.cast_zero]
    have : ¬ (1 ≤ d ∧ d ≤ (0 : Int)) := by omega
    simp [this]
  | cons a as ih =>
    intro deg q x d hx
    rw [List.foldl_cons]
    cases hla : alookup deg a with
    | none =>
      have hxa : ¬ a = x := by
        intro hh
        rw [hh, hx] at hla
        exact Option.noConfusion hla
      have hd : decOne (deg, q) a = (deg, q) := by
        simp [decOne, hla]
      rw [hd, ih deg q x d hx]
      simp only [countOcc, if_neg hxa, Nat.zero_add]
    | some da =>
      have hd : decOne (deg, q) a =
          (aupdate (fun v => v - 1) deg a, if da - 1 = 0 then q ++ [a] else q) := by
        simp [decOne, hla]
      rw [hd]
      by_cases hxa : a = x
      · subst hxa
        have hda : da = d := by
          rw [hx] at hla
          exact (Option.some.inj hla).symm
        subst hda
        have hlook : alookup (aupdate (fun v => v - 1) deg a) a = some (da - 1) := by
          rw [alookup_aupdate_self, hx]
          rfl
        rw [ih _ _ a (da - 1) hlook]
        have hq1 : countOcc a (if da - 1 = 0 then q ++ [a] else q) =
            countOcc a q + (if da - 1 = 0 then 1 else 0) := by
          by_cases hz : da - 1 = 0 <;> simp [hz, countOcc_append, countOcc]
        rw [hq1]
        simp only [countOcc, if_pos rfl]
        push_cast
        split_ifs <;> omega
      · have hlook : alookup (aupdate (fun v => v - 1) deg a) x = some d := by
          rw [alookup_aupdate_ne _ deg a x hxa, hx]
        rw [ih _ _ x d hlook]
        have hq1 : countOcc x (if da - 1 = 0 then q ++ [a] else q) = countOcc x q := by
          by_cases hz : da - 1 = 0 <;> simp [hz, countOcc_append, countOcc, hxa]
        rw [hq1]
        simp only [countOcc, if_neg hxa, Nat.zero_add]

theorem foldDec_count_none (adj : List String) :
    ∀ (deg : DegMap) (q : List String) (x : String),
      alookup deg x = none →
      countOcc x ((adj.foldl decOne (deg, q)).2) = countOcc x q := by
  induction adj with
  | nil =>
    intro deg q x hx
    simp
  | cons a as ih =>
    intro deg q x hx
    rw [List.foldl_cons]
    cases hla : alookup deg a with
    | none =>
      have hd : decOne (deg, q) a = (deg, q) := by
        simp [decOne, hla]
      rw [hd, ih deg q x hx]
    | some da =>
      have hxa : ¬ a = x := by
        intro hh
        rw [hh, hx] at hla
        exact Option.noConfusion hla
      have hd : decOne (deg, q) a =
          (aupdate (fun v => v - 1) deg a, if da - 1 = 0 then q ++ [a] else q) := by
        simp [decOne, hla]
      rw [hd]
      have hlook : alookup (aupdate (fun v => v - 1) deg a) x = none := by
        rw [alookup_aupdate_ne _ deg a x hxa, hx]
      rw [ih _ _ x hlook]
      by_cases hz : da - 1 = 0 <;> simp [hz, countOcc_append, countOcc, hxa]

theorem foldDec_append (adj : List String) :
    ∀ (deg : DegMap) (q : List String),
      ∃ suf, (adj.foldl decOne (deg, q)).2 = q ++ suf := by
  induction adj with
  | nil =>
    intro deg q
    exact ⟨[], by simp⟩
  | cons a as ih =>
    intro deg q
    rw [List.foldl_cons]
    cases hla : alookup deg a with
    | none =>
      have hd : decOne (deg, q) a = (deg, q) := by
        simp [decOne, hla]
      rw [hd]
      exact ih deg q
    | some da =>
      have hd : decOne (deg, q) a =
          (aupdate (fun v => v - 1) deg a, if da - 1 = 0 then q ++ [a] else q) := by
        simp [decOne, hla]
      rw [hd]
      by_cases hz : da - 1 = 0
      · obtain ⟨suf, hsuf⟩ := ih (aupdate (fun v => v - 1) deg a) (q ++ [a])
        rw [if_pos hz]
        exact ⟨[a] ++ suf, by rw [hsuf, List.append_assoc]⟩
      · obtain ⟨suf, hsuf⟩ := ih (aupdate (fun v => v - 1) deg a) q
        rw [if_neg hz]
        exact ⟨suf, hsuf⟩

theorem posCount_aupdate_dec (m : DegMap) (a : String) (d : Int)
    (h : alookup m a = some d) :
    posCount (aupdate (fun x => x - 1) m a) + (if d = 1 then 1 else 0) = posCount m := by
  induction m with
  | nil => exact absurd h (by simp [alookup])
  | cons kv rest ih =>
    by_cases hk : kv.1 = a
    · have hv : kv.2 = d := by
        rw [alookup, if_pos hk] at h
        exact Option.some.inj h
      subst hv
      simp only [aupdate, if_pos hk, posCount]
      split_ifs <;> omega
    · have h2 : alookup rest a = some d := by
        rw [alookup, if_neg hk] at h
        exact h
      simp only [aupdate, if_neg hk, posCount]
      have := ih h2
      omega

theorem decOne_M (st : DegMap × List String) (a : String) :
    (decOne st a).2.length + posCount (decOne st a).1 = st.2.length + posCount st.1 := by
  cases hla : alookup st.1 a with
  | none => simp [decOne, hla]
  | some d =>
    have hd : decOne st a =
        (aupdate (fun x => x - 1) st.1 a, if d - 1 = 0 then st.2 ++ [a] else st.2) := by
      simp [decOne, hla]
    rw [hd]
    dsimp only
    have hp := posCount_aupdate_dec st.1 a d hla
    by_cases hz : d - 1 = 0
    · have hd1 : d = 1 := by omega
      rw [if_pos hd1] at hp
      rw [if_pos hz]
      simp only [List.length_append, List.length_cons, List.length_nil]
      omega
    · have hd1 : ¬ d = 1 := by omega
      rw [if_neg hd1] at hp
      rw [if_neg hz]
      omega

theorem foldDec_M (adj : List String) :
    ∀ (st : DegMap × List String),
      (adj.foldl decOne st).2.length + posCount (adj.foldl decOne st).1 =
        st.2.length + posCount st.1 := by
  induction adj with
  | nil => intro st; simp
  | cons a as ih =>
    intro st
    rw [List.foldl_cons]
    rw [ih (decOne st a), decOne_M st a]

/-! ### Kahn loop invariant -/

theorem mem_iff_countOcc_pos (x : String) (l : List String) :
    x ∈ l ↔ 0 < countOcc x l := by
  constructor
  · exact countOcc_pos x l
  · intro h
    by_contra h2
    rw [(countOcc_eq_zero x l).mpr h2] at h
    omega

theorem nodup_iff_countOcc (l : List String) :
    l.Nodup ↔ ∀ x, countOcc x l ≤ 1 := by
  induction l with
  | nil => simp [countOcc]
  | cons d rest ih =>
    rw [List.nodup_cons, ih]
    constructor
    · rintro ⟨hd, hle⟩ x
      simp only [countOcc]
      by_cases hx : d = x
      · subst hx
        rw [if_pos rfl]
        have : countOcc d rest = 0 := (countOcc_eq_zero d rest).mpr hd
        omega
      · rw [if_neg hx]
        have := hle x
        omega
    · intro h
      constructor
      · intro hmem
        have h1 := h d
        simp [countOcc] at h1
        have h2 := (mem_iff_countOcc_pos d rest).mp hmem
        omega
      · intro x
        have h1 := h x
        simp only [countOcc] at h1
        by_cases hx : d = x
        · rw [if_pos hx] at h1; omega
        · rw [if_neg hx] at h1; omega

theorem countOcc_res_queue (x : String) (res queue : List String) :
    countOcc x (res ++ queue) = countOcc x res + countOcc x queue :=
  countOcc_append x res queue

theorem kahnInv_final (steps : List WorkflowStep) (deg : DegMap) (res : List String)
    (hInv : KahnInv steps deg [] res) :
    res.Nodup ∧
    (∀ x ∈ res, x ∈ stepIds steps) ∧
    (∀ s ∈ steps, s.id ∈ res → ∀ d ∈ s.dependencies,
      d ∈ res ∧ res.indexOf d < res.indexOf s.id) ∧
    (∀ k ∈ stepIds steps, ¬ k ∈ res → remCount steps k res ≠ 0) := by
  obtain ⟨hdom, hval, hnd, hsub, hqiff, hord⟩ := hInv
  refine ⟨by simpa using hnd, fun x hx => hsub x (by simp [hx]), hord, ?_⟩
  intro k hk hkres hrem
  have := (hqiff k hk).mpr ⟨hrem, hkres⟩
  exact absurd this (List.not_mem_nil k)

theorem kahnInv_step (steps : List WorkflowStep) (deg : DegMap) (cur : String)
    (rest res : List String)
    (hInv : KahnInv steps deg (cur :: rest) res) :
    KahnInv steps
      ((adjChunk steps cur).foldl decOne (deg, rest)).1
      ((adjChunk steps cur).foldl decOne (deg, rest)).2
      (res ++ [cur]) := by
  obtain ⟨hdom, hval, hnd, hsub, hqiff, hord⟩ := hInv
  have hcurids : cur ∈ stepIds steps := hsub cur (by simp)
  have hcur0 := (hqiff cur hcurids).mp (List.mem_cons_self cur rest)
  have hreszero : ∀ k ∈ res, remCount steps k res = 0 := by
    intro k hk
    rw [remCount_eq_zero]
    intro s hs hid d hd
    have hsid : s.id ∈ res := by rw [hid]; exact hk
    exact (hord s hs hsid d hd).1
  have hndq : (cur :: rest).Nodup := (List.nodup_append.mp hnd).2.1
  have hcurrest : ¬ cur ∈ rest := (List.nodup_cons.mp hndq).1
  have hlook : ∀ k, alookup ((adjChunk steps cur).foldl decOne (deg, rest)).1 k =
      (alookup deg k).map (fun d => d - (occCount steps k cur : Int)) := by
    intro k
    rw [foldDec_lookup, countOcc_adjChunk]
  have hcnt_some : ∀ x d, alookup deg x = some d →
      countOcc x ((adjChunk steps cur).foldl decOne (deg, rest)).2 =
        countOcc x rest + (if 1 ≤ d ∧ d ≤ (occCount steps x cur : Int) then 1 else 0) := by
    intro x d hx
    rw [foldDec_count_some _ deg rest x d hx, countOcc_adjChunk]
  have hcnt_none : ∀ x, alookup deg x = none →
      countOcc x ((adjChunk steps cur).foldl decOne (deg, rest)).2 = countOcc x rest := by
    intro x hx
    rw [foldDec_count_none _ deg rest x hx]
  have hpush : ∀ x d, alookup deg x = some d → 1 ≤ d →
      ¬ x ∈ res ∧ ¬ x = cur ∧ ¬ x ∈ rest := by
    intro x d hx h1
    have hxv := hval x d hx
    have hxids : x ∈ stepIds steps := (hdom x).mp (by rw [hx]; rfl)
    have hrneq : remCount steps x res ≠ 0 := by omega
    refine ⟨?_, ?_, ?_⟩
    · intro hxres
      exact hrneq (hreszero x hxres)
    · intro hxcur
      subst hxcur
      exact hrneq hcur0.1
    · intro hxrest
      exact hrneq ((hqiff x hxids).mp (List.mem_cons_of_mem cur hxrest)).1
  constructor
  · -- dom
    intro k
    rw [hlook k]
    cases h : alookup deg k with
    | none =>
      have := hdom k
      rw [h] at this
      simpa using this
    | some d0 =>
      have := hdom k
      rw [h] at this
      simpa using this
  constructor
  · -- values
    intro k d hkd
    rw [hlook k] at hkd
    cases hdeg : alookup deg k with
    | none =>
      rw [hdeg] at hkd
      exact Option.noConfusion hkd
    | some d0 =>
      rw [hdeg] at hkd
      simp only [Option.map_some'] at hkd
      have h0 := hval k d0 hdeg
      have hsn := remCount_snoc steps k cur res hcur0.2
      have hd := Option.some.inj hkd
      omega
  constructor
  · -- nodup
    rw [nodup_iff_countOcc]
    intro x
    rw [countOcc_append, countOcc_append]
    have hold := (nodup_iff_countOcc _).mp hnd x
    rw [countOcc_append] at hold
    simp only [countOcc] at hold ⊢
    cases hdeg : alookup deg x with
    | none =>
      rw [hcnt_none x hdeg]
      split_ifs at hold ⊢ <;> omega
    | some d =>
      rw [hcnt_some x d hdeg]
      by_cases hc : 1 ≤ d ∧ d ≤ (occCount steps x cur : Int)
      · rw [if_pos hc]
        obtain ⟨hxres, hxcur, hxrest⟩ := hpush x d hdeg hc.1
        have h1 : countOcc x res = 0 := (countOcc_eq_zero x res).mpr hxres
        have h2 : countOcc x rest = 0 := (countOcc_eq_zero x rest).mpr hxrest
        have h3 : ¬ cur = x := fun hh => hxcur hh.symm
        split_ifs at hold ⊢ <;> omega
      · rw [if_neg hc]
        split_ifs at hold ⊢ <;> omega
  constructor
  · -- subset
    intro x hx
    rcases List.mem_append.mp hx with hx | hx
    · rcases List.mem_append.mp hx with hx | hx
      · exact hsub x (List.mem_append_left _ hx)
      · rw [List.mem_singleton] at hx
        subst hx
        exact hcurids
    · have hpos := (mem_iff_countOcc_pos x _).mp hx
      cases hdeg : alookup deg x with
      | none =>
        rw [hcnt_none x hdeg] at hpos
        exact hsub x (List.mem_append_right _
          (List.mem_cons_of_mem cur ((mem_iff_countOcc_pos x rest).mpr hpos)))
      | some d =>
        exact (hdom x).mp (by rw [hdeg]; rfl)
  constructor
  · -- queue characterization
    intro k hkids
    obtain ⟨d, hdeg⟩ : ∃ d, alookup deg k = some d := by
      cases h : alookup deg k with
      | none =>
        have hsome := (hdom k).mpr hkids
        rw [h] at hsome
        simp at hsome
      | some d => exact ⟨d, rfl⟩
    have hdval := hval k d hdeg
    have hsn := remCount_snoc steps k cur res hcur0.2
    constructor
    · intro hkst
      have hpos := (mem_iff_countOcc_pos k _).mp hkst
      rw [hcnt_some k d hdeg] at hpos
      by_cases hc : 1 ≤ d ∧ d ≤ (occCount steps k cur : Int)
      · obtain ⟨hkres, hkcur, hkrest⟩ := hpush k d hdeg hc.1
        obtain ⟨hc1, hc2⟩ := hc
        refine ⟨by omega, ?_⟩
        intro hk2
        rcases List.mem_append.mp hk2 with h | h
        · exact hkres h
        · rw [List.mem_singleton] at h
          exact hkcur h
      · rw [if_neg hc] at hpos
        have hkrest : k ∈ rest := (mem_iff_countOcc_pos k rest).mpr (by omega)
        have hq := (hqiff k hkids).mp (List.mem_cons_of_mem cur hkrest)
        obtain ⟨hq1, hq2⟩ := hq
        refine ⟨by omega, ?_⟩
        intro hk2
        rcases List.mem_append.mp hk2 with h | h
        · exact hq2 h
        · rw [List.mem_singleton] at h
          subst h
          exact hcurrest hkrest
    · rintro ⟨hrem2, hnmem⟩
      have hkres : ¬ k ∈ res := fun h => hnmem (List.mem_append_left _ h)
      have hkcur : ¬ k = cur := fun h => hnmem (List.mem_append_right _ (by simp [h]))
      rw [mem_iff_countOcc_pos, hcnt_some k d hdeg]
      by_cases hz : remCount steps k res = 0
      · have hkq := (hqiff k hkids).mpr ⟨hz, hkres⟩
        have hkrest : k ∈ rest := by
          rcases List.mem_cons.mp hkq with h | h
          · exact absurd h hkcur
          · exact h
        have := (mem_iff_countOcc_pos k rest).mp hkrest
        split_ifs <;> omega
      · have hcond : 1 ≤ d ∧ d ≤ (occCount steps k cur : Int) := by
          constructor <;> omega
        rw [if_pos hcond]
        omega
  · -- ordering
    intro s hs hsid d hd
    rcases List.mem_append.mp hsid with h | h
    · obtain ⟨hdres, hidx⟩ := hord s hs h d hd
      refine ⟨List.mem_append_left _ hdres, ?_⟩
      rw [List.indexOf_append_of_mem hdres, List.indexOf_append_of_mem h]
      exact hidx
    · rw [List.mem_singleton] at h
      have hdres : d ∈ res := by
        have h0 := hcur0.1
        rw [remCount_eq_zero] at h0
        exact h0 s hs h d hd
      refine ⟨List.mem_append_left _ hdres, ?_⟩
      rw [List.indexOf_append_of_mem hdres, h, List.indexOf_append_of_not_mem hcur0.2]
      have hlt := List.indexOf_lt_length.mpr hdres
      simp only [List.indexOf_cons_self]
      omega

theorem kahnLoop_invariant (steps : List WorkflowStep) :
    ∀ (fuel : Nat) (deg : DegMap) (queue res : List String),
      KahnInv steps deg queue res →
      queue.length + posCount deg ≤ fuel →
      ∃ res2, kahnLoop (buildEdges steps).1 fuel deg queue res = some res2 ∧
        res2.Nodup ∧
        (∀ x ∈ res2, x ∈ stepIds steps) ∧
        (∀ s ∈ steps, s.id ∈ res2 → ∀ d ∈ s.dependencies,
          d ∈ res2 ∧ res2.indexOf d < res2.indexOf s.id) ∧
        (∀ k ∈ stepIds steps, ¬ k ∈ res2 → remCount steps k res2 ≠ 0) := by
  intro fuel
  induction fuel with
  | zero =>
    intro deg queue res hInv hM
    cases queue with
    | cons a b =>
      rw [List.length_cons] at hM
      omega
    | nil =>
      obtain ⟨h1, h2, h3, h4⟩ := kahnInv_final steps deg res hInv
      exact ⟨res, by simp [kahnLoop], h1, h2, h3, h4⟩
  | succ fuel ih =>
    intro deg queue res hInv hM
    cases queue with
    | nil =>
      obtain ⟨h1, h2, h3, h4⟩ := kahnInv_final steps deg res hInv
      exact ⟨res, by simp [kahnLoop], h1, h2, h3, h4⟩
    | cons cur rest =>
      have hInv2 := kahnInv_step steps deg cur rest res hInv
      have hcurids : cur ∈ stepIds steps := by
        obtain ⟨_, _, _, hsub, _, _⟩ := hInv
        exact hsub cur (by simp)
      have hg : alookup (buildEdges steps).1 cur = some (adjChunk steps cur) := by
        rw [alookup_buildEdges_graph, if_pos hcurids]
      have hunfold : kahnLoop (buildEdges steps).1 (fuel + 1) deg (cur :: rest) res =
          kahnLoop (buildEdges steps).1 fuel
            ((adjChunk steps cur).foldl decOne (deg, rest)).1
            ((adjChunk steps cur).foldl decOne (deg, rest)).2
            (res ++ [cur]) := by
        simp only [kahnLoop, hg, Option.getD_some]
      have hM2 : ((adjChunk steps cur).foldl decOne (deg, rest)).2.length +
          posCount ((adjChunk steps cur).foldl decOne (deg, rest)).1 ≤ fuel := by
        have hfm := foldDec_M (adjChunk steps cur) (deg, rest)
        dsimp only at hfm
        rw [List.length_cons] at hM
        omega
      obtain ⟨res2, hrun, hr1, hr2, hr3, hr4⟩ := ih _ _ _ hInv2 hM2
      exact ⟨res2, by rw [hunfold]; exact hrun, hr1, hr2, hr3, hr4⟩

/-! ### Initial state of the Kahn loop -/

theorem posCount_le_length (m : DegMap) : posCount m ≤ m.length := by
  induction m with
  | nil => simp [posCount]
  | cons kv rest ih =>
    simp only [posCount, List.length_cons]
    split_ifs <;> omega

theorem inner_fold_deg_keys (sid : String) (deps : List String) :
    ∀ gm : AdjMap × DegMap,
      akeys ((deps.foldl (fun gi2 dep =>
        (aupdate (fun l => l ++ [sid]) gi2.1 dep,
         aupdate (fun d => d + 1) gi2.2 sid)) gm).2) = akeys gm.2 := by
  induction deps with
  | nil => intro gm; rfl
  | cons d0 ds ih =>
    intro gm
    rw [List.foldl_cons, ih]
    exact akeys_aupdate _ gm.2 sid

theorem outer_fold_deg_keys (steps : List WorkflowStep) :
    ∀ gm : AdjMap × DegMap,
      akeys ((steps.foldl (fun gi s =>
        s.dependencies.foldl (fun gi2 dep =>
          (aupdate (fun l => l ++ [s.id]) gi2.1 dep,
           aupdate (fun d => d + 1) gi2.2 s.id)) gi) gm).2) = akeys gm.2 := by
  induction steps with
  | nil => intro gm; rfl
  | cons s rest ih =>
    intro gm
    rw [List.foldl_cons, ih, inner_fold_deg_keys]

theorem akeys_buildEdges_deg (steps : List WorkflowStep) :
    akeys (buildEdges steps).2 = akeys (init_in_degree steps) := by
  unfold buildEdges
  exact outer_fold_deg_keys steps (init_graph steps, init_in_degree steps)

theorem buildEdges_deg_length (steps : List WorkflowStep) :
    (buildEdges steps).2.length = (init_in_degree steps).length := by
  have h := congrArg List.length (akeys_buildEdges_deg steps)
  simpa [akeys] using h

theorem init_in_degree_length_le (steps : List WorkflowStep) :
    (init_in_degree steps).length ≤ steps.length := by
  have h := akeys_const_fold_length (0 : Int) steps []
  simpa [akeys, init_in_degree] using h

theorem init_in_degree_length_lt (steps : List WorkflowStep)
    (hdup : ¬ (stepIds steps).Nodup) :
    (init_in_degree steps).length < steps.length := by
  have h := akeys_const_fold_length_lt (0 : Int) steps [] (Or.inl hdup)
  simpa [akeys, init_in_degree] using h

theorem akeys_buildEdges_nodup (steps : List WorkflowStep) :
    (akeys (buildEdges steps).2).Nodup := by
  rw [akeys_buildEdges_deg]
  exact akeys_const_fold_nodup (0 : Int) steps [] (by simp [akeys])

theorem mem_zero_filter (m : DegMap) (h : (akeys m).Nodup) (k : String) :
    k ∈ (m.filter (fun kd => decide (kd.2 = 0))).map (fun kd => kd.1) ↔
      alookup m k = some 0 := by
  simp only [List.mem_map, List.mem_filter]
  constructor
  · rintro ⟨⟨k1, v⟩, ⟨hmem, hv⟩, hfst⟩
    dsimp only at hfst hv
    subst hfst
    have hv0 : v = 0 := by simpa using hv
    subst hv0
    exact (alookup_nodup_mem m h k1 0).mp hmem
  · intro hl
    exact ⟨(k, 0), ⟨(alookup_nodup_mem m h k 0).mpr hl, by simp⟩, rfl⟩

theorem zero_filter_nodup (m : DegMap) (h : (akeys m).Nodup) :
    ((m.filter (fun kd => decide (kd.2 = 0))).map (fun kd => kd.1)).Nodup := by
  have hsub : List.Sublist ((m.filter (fun kd => decide (kd.2 = 0))).map (fun kd => kd.1))
      (akeys m) :=
    (List.filter_sublist m).map (fun kd => kd.1)
  exact h.sublist hsub

theorem kahnInv_initial (steps : List WorkflowStep) :
    KahnInv steps (buildEdges steps).2
      (((buildEdges steps).2.filter (fun kd => decide (kd.2 = 0))).map (fun kd => kd.1))
      [] := by
  have hknd := akeys_buildEdges_nodup steps
  refine ⟨?_, ?_, ?_, ?_, ?_, ?_⟩
  · intro k
    rw [alookup_buildEdges_deg]
    by_cases h : k ∈ stepIds steps <;> simp [h]
  · intro k d hkd
    rw [alookup_buildEdges_deg] at hkd
    by_cases h : k ∈ stepIds steps
    · rw [if_pos h] at hkd
      exact (Option.some.inj hkd).symm
    · rw [if_neg h] at hkd
      exact Option.noConfusion hkd
  · simpa using zero_filter_nodup (buildEdges steps).2 hknd
  · intro x hx
    simp only [List.nil_append] at hx
    have := (mem_zero_filter (buildEdges steps).2 hknd x).mp hx
    have h2 := (alookup_isSome_iff (buildEdges steps).2 x).mp (by rw [this]; rfl)
    rw [akeys_buildEdges_deg] at h2
    have h3 := alookup_init_in_degree steps x
    by_cases hmem : x ∈ stepIds steps
    · exact hmem
    · rw [if_neg hmem] at h3
      rw [(alookup_eq_none _ x).mpr] at this
      · exact Option.noConfusion this
      · rw [akeys_buildEdges_deg]
        intro hc
        have h4 := (alookup_isSome_iff (init_in_degree steps) x).mpr hc
        rw [h3] at h4
        simp at h4
  · intro k hk
    rw [mem_zero_filter (buildEdges steps).2 hknd k, alookup_buildEdges_deg, if_pos hk]
    simp only [List.not_mem_nil, not_false_eq_true, and_true, Option.some.injEq]
    constructor
    · intro h
      exact_mod_cast h
    · intro h
      rw [h]
      simp
  · intro s _ hsid
    exact absurd hsid (List.not_mem_nil s.id)

theorem kahn_M0_le (steps : List WorkflowStep) :
    (((buildEdges steps).2.filter (fun kd => decide (kd.2 = 0))).map (fun kd => kd.1)).length +
      posCount (buildEdges steps).2 ≤ kahnFuel steps := by
  have h1 : (((buildEdges steps).2.filter (fun kd => decide (kd.2 = 0))).map
      (fun kd => kd.1)).length ≤ (buildEdges steps).2.length := by
    rw [List.length_map]
    exact List.length_filter_le _ _
  have h2 := posCount_le_length (buildEdges steps).2
  have h3 := buildEdges_deg_length steps
  have h4 := init_in_degree_length_le steps
  unfold kahnFuel
  omega

theorem kahn_run (steps : List WorkflowStep) :
    ∃ res2,
      kahnLoop (buildEdges steps).1 (kahnFuel steps) (buildEdges steps).2
        (((buildEdges steps).2.filter (fun kd => decide (kd.2 = 0))).map (fun kd => kd.1))
        [] = some res2 ∧
      res2.Nodup ∧
      (∀ x ∈ res2, x ∈ stepIds steps) ∧
      (∀ s ∈ steps, s.id ∈ res2 → ∀ d ∈ s.dependencies,
        d ∈ res2 ∧ res2.indexOf d < res2.indexOf s.id) ∧
      (∀ k ∈ stepIds steps, ¬ k ∈ res2 → remCount steps k res2 ≠ 0) :=
  kahnLoop_invariant steps (kahnFuel steps) _ _ [] (kahnInv_initial steps) (kahn_M0_le steps)

theorem topological_sort_ok (steps : List WorkflowStep)
    (hnd : (stepIds steps).Nodup)
    (hres : ∀ s ∈ steps, ∀ d ∈ s.dependencies, d ∈ stepIds steps)
    (hacyc : AcyclicSteps steps) :
    ∃ order, topological_sort steps = Except.ok order ∧
      order.Perm (stepIds steps) ∧
      (∀ s ∈ steps, ∀ d ∈ s.dependencies, order.indexOf d < order.indexOf s.id) := by
  obtain ⟨res2, hrun, hnd2, hsub2, hord2, hend⟩ := kahn_run steps
  obtain ⟨rank, hrank⟩ := hacyc
  have hcomplete : ∀ k ∈ stepIds steps, k ∈ res2 := by
    have H : ∀ n k, k ∈ stepIds steps → rank k = n → k ∈ res2 := by
      intro n
      induction n using Nat.strong_induction_on with
      | _ n ihn =>
        intro k hk hrk
        by_contra hknot
        have hrem := hend k hk hknot
        rw [Ne, remCount_eq_zero] at hrem
        push_neg at hrem
        obtain ⟨s, hs, hsid, d, hd, hdnot⟩ := hrem
        have hdids : d ∈ stepIds steps := hres s hs d hd
        have hdrank : rank d < n := by
          have := hrank s hs d hd
          rw [hsid] at this
          omega
        exact hdnot (ihn (rank d) hdrank d hdids rfl)
    intro k hk
    exact H (rank k) k hk rfl
  have hperm : res2.Perm (stepIds steps) := by
    rw [List.perm_ext_iff_of_nodup hnd2 hnd]
    intro a
    exact ⟨fun h => hsub2 a h, fun h => hcomplete a h⟩
  have hlen : res2.length = steps.length := by
    have h := hperm.length_eq
    simpa [stepIds] using h
  refine ⟨res2, ?_, hperm, ?_⟩
  · simp only [topological_sort]
    rw [hrun]
    have hne : ¬ (res2.length ≠ steps.length) := by omega
    dsimp only
    rw [if_neg hne]
  · intro s hs d hd
    have hsid : s.id ∈ res2 := hcomplete s.id (List.mem_map_of_mem (fun s => s.id) hs)
    exact (hord2 s hs hsid d hd).2

theorem topological_sort_dup_error (steps : List WorkflowStep)
    (hdup : ¬ (stepIds steps).Nodup) :
    ∃ res2,
      kahnLoop (buildEdges steps).1 (kahnFuel steps) (buildEdges steps).2
        (((buildEdges steps).2.filter (fun kd => decide (kd.2 = 0))).map (fun kd => kd.1))
        [] = some res2 ∧
      res2.length < steps.length ∧
      topological_sort steps = Except.error "Circular dependency detected in workflow" := by
  obtain ⟨res2, hrun, hnd2, hsub2, _, _⟩ := kahn_run steps
  have hsubkeys : res2 ⊆ akeys (buildEdges steps).2 := by
    intro x hx
    have hids := hsub2 x hx
    have hs : (alookup (buildEdges steps).2 x).isSome := by
      rw [alookup_buildEdges_deg, if_pos hids]
      rfl
    exact (alookup_isSome_iff _ x).mp hs
  have hlen1 : res2.length ≤ (akeys (buildEdges steps).2).length :=
    (List.subperm_of_subset hnd2 hsubkeys).length_le
  have hlen2 : (akeys (buildEdges steps).2).length = (buildEdges steps).2.length := by
    simp [akeys]
  have hlen3 := buildEdges_deg_length steps
  have hlen4 := init_in_degree_length_lt steps hdup
  have hlt : res2.length < steps.length := by omega
  refine ⟨res2, hrun, hlt, ?_⟩
  simp only [topological_sort]
  rw [hrun]
  dsimp only
  rw [if_pos (by omega)]

/-! ### Step execution accounting -/

theorem ainsert_length_of_none {α : Type} (m : List (String × α)) (k : String) (v : α)
    (h : alookup m k = none) : (ainsert m k v).length = m.length + 1 := by
  induction m with
  | nil => simp [ainsert]
  | cons kv rest ih =>
    by_cases hk : kv.1 = k
    · rw [alookup, if_pos hk] at h
      exact Option.noConfusion h
    · rw [alookup, if_neg hk] at h
      simp [ainsert, hk, ih h]

theorem runSteps_spec (procs : Procs) (allSteps : List WorkflowStep) :
    ∀ (order : List String) (r : List (String × Json)) (e : List (String × String))
      (c : Option String),
      order.Nodup →
      (∀ sid ∈ order, ∃ s ∈ allSteps, s.id = sid) →
      (∀ sid ∈ order, alookup r sid = none ∧ alookup e sid = none) →
      ∃ r2 e2 c2, runSteps procs allSteps order (r, e, c) = some (r2, e2, c2) ∧
        r2.length + e2.length = r.length + e.length + order.length ∧
        (∀ k, ¬ k ∈ order → alookup r2 k = alookup r k ∧ alookup e2 k = alookup e k) ∧
        (∀ sid ∈ order,
          ((alookup r2 sid).isSome ∧ alookup e2 sid = none) ∨
          (alookup r2 sid = none ∧ (alookup e2 sid).isSome)) := by
  intro order
  induction order with
  | nil =>
    intro r e c _ _ _
    refine ⟨r, e, c, rfl, by simp, fun k _ => ⟨rfl, rfl⟩, by simp⟩
  | cons sid rest ih =>
    intro r e c hnd hfind hfresh
    obtain ⟨s, hs, hsid⟩ := hfind sid (by simp)
    have hfs : (allSteps.find? (fun s2 => s2.id == sid)).isSome :=
      List.find?_isSome.mpr ⟨s, hs, by simp [hsid]⟩
    obtain ⟨s3, hs3⟩ := Option.isSome_iff_exists.mp hfs
    have hndr : rest.Nodup := (List.nodup_cons.mp hnd).2
    have hsidrest : ¬ sid ∈ rest := (List.nodup_cons.mp hnd).1
    have hfresh0 := hfresh sid (by simp)
    cases hex2 : execute_step procs s3 r with
    | ok v =>
      have hfresh2 : ∀ sid2 ∈ rest, alookup (ainsert r sid v) sid2 = none ∧
          alookup e sid2 = none := by
        intro sid2 h2
        have hne : ¬ sid = sid2 := fun hh => hsidrest (hh ▸ h2)
        rw [alookup_ainsert_ne r sid sid2 v hne]
        exact hfresh sid2 (List.mem_cons_of_mem sid h2)
      obtain ⟨r2, e2, c2, hrun, hlen, hframe, hone⟩ :=
        ih (ainsert r sid v) e (some sid) hndr
          (fun sid2 h2 => hfind sid2 (List.mem_cons_of_mem sid h2)) hfresh2
      refine ⟨r2, e2, c2, ?_, ?_, ?_, ?_⟩
      · simp only [runSteps, hs3, hex2]
        exact hrun
      · rw [ainsert_length_of_none r sid v hfresh0.1] at hlen
        rw [List.length_cons]
        omega
      · intro k hk
        have hkrest : ¬ k ∈ rest := fun h2 => hk (List.mem_cons_of_mem sid h2)
        have hksid : ¬ sid = k := fun hh => hk (by rw [← hh]; simp)
        obtain ⟨hf1, hf2⟩ := hframe k hkrest
        rw [hf1, hf2, alookup_ainsert_ne r sid k v hksid]
        exact ⟨rfl, rfl⟩
      · intro sid2 h2
        rcases List.mem_cons.mp h2 with h3 | h3
        · subst h3
          obtain ⟨hf1, hf2⟩ := hframe sid2 hsidrest
          left
          constructor
          · rw [hf1, alookup_ainsert_self]
            rfl
          · rw [hf2]
            exact hfresh0.2
        · exact hone sid2 h3
    | error err =>
      have hfresh2 : ∀ sid2 ∈ rest, alookup r sid2 = none ∧
          alookup (ainsert e sid ("Step execution failed: " ++ err)) sid2 = none := by
        intro sid2 h2
        have hne : ¬ sid = sid2 := fun hh => hsidrest (hh ▸ h2)
        rw [alookup_ainsert_ne e sid sid2 _ hne]
        exact hfresh sid2 (List.mem_cons_of_mem sid h2)
      obtain ⟨r2, e2, c2, hrun, hlen, hframe, hone⟩ :=
        ih r (ainsert e sid ("Step execution failed: " ++ err)) (some sid) hndr
          (fun sid2 h2 => hfind sid2 (List.mem_cons_of_mem sid h2)) hfresh2
      refine ⟨r2, e2, c2, ?_, ?_, ?_, ?_⟩
      · simp only [runSteps, hs3, hex2]
        exact hrun
      · rw [ainsert_length_of_none e sid _ hfresh0.2] at hlen
        rw [List.length_cons]
        omega
      · intro k hk
        have hkrest : ¬ k ∈ rest := fun h2 => hk (List.mem_cons_of_mem sid h2)
        have hksid : ¬ sid = k := fun hh => hk (by rw [← hh]; simp)
        obtain ⟨hf1, hf2⟩ := hframe k hkrest
        rw [hf1, hf2, alookup_ainsert_ne e sid k _ hksid]
        exact ⟨rfl, rfl⟩
      · intro sid2 h2
        rcases List.mem_cons.mp h2 with h3 | h3
        · subst h3
          obtain ⟨hf1, hf2⟩ := hframe sid2 hsidrest
          right
          constructor
          · rw [hf1]
            exact hfresh0.1
          · rw [hf2, alookup_ainsert_self]
            rfl
        · exact hone sid2 h3

theorem depCheck_none (ids : List String) :
    ∀ (l : List WorkflowStep), depCheck ids l = none →
      ∀ s ∈ l, ∀ d ∈ s.dependencies, d ∈ ids := by
  intro l
  induction l with
  | nil =>
    intro _ s hs
    exact absurd hs (List.not_mem_nil s)
  | cons s0 rest ih =>
    intro h s hs d hd
    unfold depCheck at h
    cases hf : s0.dependencies.find? (fun d2 => !(ids.contains d2)) with
    | some dd =>
      rw [hf] at h
      exact Option.noConfusion h
    | none =>
      rw [hf] at h
      rcases List.mem_cons.mp hs with h2 | h2
      · subst h2
        have hfd := List.find?_eq_none.mp hf d hd
        simpa using hfd
      · exact ih h s h2 d hd

theorem validate_ok_facts (steps : List WorkflowStep)
    (h : validate_workflow steps = ValidateOutcome.ok) :
    steps ≠ [] ∧ ∀ s ∈ steps, ∀ d ∈ s.dependencies, d ∈ stepIds steps := by
  unfold validate_workflow at h
  by_cases he : steps.isEmpty
  · rw [if_pos he] at h
    exact ValidateOutcome.noConfusion h
  · rw [if_neg he] at h
    constructor
    · intro hnil
      subst hnil
      simp at he
    · cases hcy : cycleCheckLoop steps (hasCycleFuel steps) steps [] [] with
      | found =>
        rw [hcy] at h
        exact ValidateOutcome.noConfusion h
      | panicked =>
        rw [hcy] at h
        exact ValidateOutcome.noConfusion h
      | fuelOut =>
        rw [hcy] at h
        exact ValidateOutcome.noConfusion h
      | notFound v rr =>
        rw [hcy] at h
        cases hdc : depCheck (steps.map (fun s => s.id)) steps with
        | some p =>
          rw [hdc] at h
          cases p
          exact ValidateOutcome.noConfusion h
        | none =>
          exact depCheck_none (steps.map (fun s => s.id)) steps hdc

theorem execute_workflow_ok_spec (procs : Procs) (wid : String) (t0 t1 : Nat)
    (name : String) (steps : List WorkflowStep) (params : Option Json)
    (registry : List (String × WorkflowExecution))
    (hval : validate_workflow steps = ValidateOutcome.ok)
    (hnd : (stepIds steps).Nodup)
    (hacyc : AcyclicSteps steps) :
    ∃ res : WorkflowResult,
      (execute_workflow procs wid t0 t1 name steps params registry).2 =
        EngineOutcome.ok (wid, res) ∧
      res.step_count = steps.length ∧
      res.successful_steps = res.results.length ∧
      res.failed_steps = res.errors.length ∧
      res.results.length + res.errors.length = steps.length ∧
      (∀ s ∈ steps,
        ((alookup res.results s.id).isSome ∧ alookup res.errors s.id = none) ∨
        (alookup res.results s.id = none ∧ (alookup res.errors s.id).isSome)) ∧
      (res.status = WorkflowStatus.Completed ↔ res.errors = []) ∧
      (res.status = WorkflowStatus.Failed ↔ res.errors ≠ []) := by
  obtain ⟨hne, hres⟩ := validate_ok_facts steps hval
  obtain ⟨order, htopo, hperm, _⟩ := topological_sort_ok steps hnd hres hacyc
  have hordernd : order.Nodup := hperm.nodup_iff.mpr hnd
  have horderlen : order.length = steps.length := by
    have h := hperm.length_eq
    simpa [stepIds] using h
  have hfind : ∀ sid ∈ order, ∃ s ∈ steps, s.id = sid := by
    intro sid hsid
    have h2 : sid ∈ stepIds steps := hperm.mem_iff.mp hsid
    rcases List.mem_map.mp h2 with ⟨s, hs, hid⟩
    exact ⟨s, hs, hid⟩
  obtain ⟨r2, e2, c2, hrun, hlen, hframe, hone⟩ :=
    runSteps_spec procs steps order [] [] none hordernd hfind
      (fun sid _ => ⟨rfl, rfl⟩)
  have hmain : (execute_workflow procs wid t0 t1 name steps params registry).2 =
      EngineOutcome.ok (wid,
        { workflow_id := wid,
          status := if e2.isEmpty then WorkflowStatus.Completed else WorkflowStatus.Failed,
          results := r2, errors := e2, execution_time_ms := t1 - t0,
          step_count := steps.length, successful_steps := r2.length,
          failed_steps := e2.length }) := by
    simp only [execute_workflow, hval, execute_workflow_steps, htopo, hrun,
      Option.map_some']
  refine ⟨_, hmain, rfl, rfl, rfl, ?_, ?_, ?_, ?_⟩
  · dsimp only
    simp only [List.length_nil] at hlen
    omega
  · intro s hs
    have hsid : s.id ∈ order := hperm.mem_iff.mpr (List.mem_map_of_mem (fun s => s.id) hs)
    exact hone s.id hsid
  · dsimp only
    by_cases he2 : e2 = []
    · subst he2
      simp
    · have : e2.isEmpty = false := by
        rcases e2 with _ | ⟨a, b⟩
        · exact absurd rfl he2
        · rfl
      rw [this]
      simp [he2]
  · dsimp only
    by_cases he2 : e2 = []
    · subst he2
      simp
    · have : e2.isEmpty = false := by
        rcases e2 with _ | ⟨a, b⟩
        · exact absurd rfl he2
        · rfl
      rw [this]
      simp [he2]

/-! ### Claims C2, C3, C9, C10 -/

/-- Claim C2: for every non-empty step list (with distinct step ids, which the
data model requires) whose dependency relation is acyclic and whose every
dependency id names a step in the list, topological_sort returns a
permutation of the step ids in which each step is placed strictly after every
one of its dependencies. -/
theorem topological_sort_is_topological (steps : List WorkflowStep)
    (hne : steps ≠ [])
    (hnd : (stepIds steps).Nodup)
    (hres : ∀ s ∈ steps, ∀ d ∈ s.dependencies, d ∈ stepIds steps)
    (hacyc : AcyclicSteps steps) :
    ∃ order, topological_sort steps = Except.ok order ∧
      order.Perm (stepIds steps) ∧
      ∀ s ∈ steps, ∀ d ∈ s.dependencies,
        order.indexOf d < order.indexOf s.id := by
  obtain ⟨order, h1, h2, h3⟩ := topological_sort_ok steps hnd hres hacyc
  exact ⟨order, h1, h2, h3⟩

/-- Witness for C2 at the three-step chain listed out of dependency order. -/
theorem topological_sort_is_topological_witness :
    ∃ order, topological_sort chainSteps = Except.ok order ∧
      order.Perm (stepIds chainSteps) ∧
      ∀ s ∈ chainSteps, ∀ d ∈ s.dependencies,
        order.indexOf d < order.indexOf s.id :=
  topological_sort_is_topological chainSteps (by simp [chainSteps]) (by decide) (by decide)
    ⟨fun sid => if sid = "a" then 0 else if sid = "b" then 1 else 2, by decide⟩

/-- Claim C3: every submitted workflow that passes validation (with distinct
step ids, as the data model requires, and an acyclic dependency relation) has
every step attempted regardless of earlier step failures - each step id ends
in the results map or the errors map - and the final status is Completed
exactly when the errors map is empty, Failed exactly when it is not. -/
theorem execute_workflow_attempts_all_steps (procs : Procs) (wid : String)
    (t0 t1 : Nat) (name : String) (steps : List WorkflowStep) (params : Option Json)
    (registry : List (String × WorkflowExecution))
    (hval : validate_workflow steps = ValidateOutcome.ok)
    (hnd : (stepIds steps).Nodup)
    (hacyc : AcyclicSteps steps) :
    ∃ res : WorkflowResult,
      (execute_workflow procs wid t0 t1 name steps params registry).2 =
        EngineOutcome.ok (wid, res) ∧
      (∀ s ∈ steps,
        (alookup res.results s.id).isSome ∨ (alookup res.errors s.id).isSome) ∧
      (res.status = WorkflowStatus.Completed ↔ res.errors = []) ∧
      (res.status = WorkflowStatus.Failed ↔ res.errors ≠ []) := by
  obtain ⟨res, hm, _, _, _, _, hone, hc, hf⟩ :=
    execute_workflow_ok_spec procs wid t0 t1 name steps params registry hval hnd hacyc
  refine ⟨res, hm, ?_, hc, hf⟩
  intro s hs
  rcases hone s hs with h | h
  · exact Or.inl h.1
  · exact Or.inr h.2

/-- Witness for C3: the three-step chain run with the always-failing handler;
all three steps are still attempted and the run reports Failed. -/
theorem execute_workflow_attempts_all_steps_witness :
    ∃ res : WorkflowResult,
      (execute_workflow procsFail "w9" 5 8 "demo" chainSteps none []).2 =
        EngineOutcome.ok ("w9", res) ∧
      (∀ s ∈ chainSteps,
        (alookup res.results s.id).isSome ∨ (alookup res.errors s.id).isSome) ∧
      (res.status = WorkflowStatus.Completed ↔ res.errors = []) ∧
      (res.status = WorkflowStatus.Failed ↔ res.errors ≠ []) :=
  execute_workflow_attempts_all_steps procsFail "w9" 5 8 "demo" chainSteps none []
    (by decide) (by decide)
    ⟨fun sid => if sid = "a" then 0 else if sid = "b" then 1 else 2, by decide⟩

/-- Claim C9: in a validated run (with distinct step ids and an acyclic
dependency relation), every attempted step appears in exactly one of the
results and errors maps, and successful steps plus failed steps equals the
step count of the final WorkflowResult. -/
theorem workflow_result_accounting (procs : Procs) (wid : String)
    (t0 t1 : Nat) (name : String) (steps : List WorkflowStep) (params : Option Json)
    (registry : List (String × WorkflowExecution))
    (hval : validate_workflow steps = ValidateOutcome.ok)
    (hnd : (stepIds steps).Nodup)
    (hacyc : AcyclicSteps steps) :
    ∃ res : WorkflowResult,
      (execute_workflow procs wid t0 t1 name steps params registry).2 =
        EngineOutcome.ok (wid, res) ∧
      (∀ s ∈ steps,
        ((alookup res.results s.id).isSome ∧ alookup res.errors s.id = none) ∨
        (alookup res.results s.id = none ∧ (alookup res.errors s.id).isSome)) ∧
      res.successful_steps + res.failed_steps = res.step_count := by
  obtain ⟨res, hm, hsc, hsucc, hfail, hlen, hone, _, _⟩ :=
    execute_workflow_ok_spec procs wid t0 t1 name steps params registry hval hnd hacyc
  refine ⟨res, hm, hone, by omega⟩

/-- Witness for C9: the three-step chain run with the always-succeeding
handler. -/
theorem workflow_result_accounting_witness :
    ∃ res : WorkflowResult,
      (execute_workflow procsOk "w10" 5 8 "demo" chainSteps none []).2 =
        EngineOutcome.ok ("w10", res) ∧
      (∀ s ∈ chainSteps,
        ((alookup res.results s.id).isSome ∧ alookup res.errors s.id = none) ∨
        (alookup res.results s.id = none ∧ (alookup res.errors s.id).isSome)) ∧
      res.successful_steps + res.failed_steps = res.step_count :=
  workflow_result_accounting procsOk "w10" 5 8 "demo" chainSteps none []
    (by decide) (by decide)
    ⟨fun sid => if sid = "a" then 0 else if sid = "b" then 1 else 2, by decide⟩

/-- Claim C10: validation does not reject duplicate step ids (shown on the
concrete acyclic duplicate pair, which validates ok), but for every step list
with a repeated id the Kahn loop emits strictly fewer entries than there are
steps, so topological_sort fails with the cycle-detected error even though the
dependency relation is acyclic. -/
theorem duplicate_ids_topological_sort_fails :
    validate_workflow dupSteps = ValidateOutcome.ok ∧
    ∀ steps : List WorkflowStep, ¬ (stepIds steps).Nodup →
      (∃ res2,
        kahnLoop (buildEdges steps).1 (kahnFuel steps) (buildEdges steps).2
          (((buildEdges steps).2.filter (fun kd => decide (kd.2 = 0))).map
            (fun kd => kd.1)) [] = some res2 ∧
        res2.length < steps.length) ∧
      topological_sort steps =
        Except.error "Circular dependency detected in workflow" := by
  refine ⟨by decide, ?_⟩
  intro steps hdup
  obtain ⟨res2, h1, h2, h3⟩ := topological_sort_dup_error steps hdup
  exact ⟨⟨res2, h1, h2⟩, h3⟩

/-- Witness for C10 at the concrete duplicate pair. -/
theorem duplicate_ids_topological_sort_fails_witness :
    (∃ res2,
      kahnLoop (buildEdges dupSteps).1 (kahnFuel dupSteps) (buildEdges dupSteps).2
        (((buildEdges dupSteps).2.filter (fun kd => decide (kd.2 = 0))).map
          (fun kd => kd.1)) [] = some res2 ∧
      res2.length < dupSteps.length) ∧
    topological_sort dupSteps =
      Except.error "Circular dependency detected in workflow" :=
  duplicate_ids_topological_sort_fails.2 dupSteps (by decide)
